import Mathlib

/-!
Verification of the N-dimensional Minesweeper engine.

The development shallowly embeds the Rust sources:

* `src/coordinates.rs` : `to_index`, `to_coords`, `get_neighbors`
* `src/cell.rs`        : `Cell`, `CellState`, `CellKind`
* `src/board.rs`       : `Board`, `Board.new`, `place_mines`,
                         `calculate_adjacent_mines`, `Board.toggle_flag`,
                         `Board.reveal`
* `src/game.rs`        : `Game`, `GameState`, `Game.new`, `Game.reveal`,
                         `Game.toggle_flag`, `Game.is_won`

Modelling conventions:

* `usize` values (coordinates, extents, flat indices, cell counts) are
  modelled as `Nat`.  A board that exists in memory has fewer than `2 ^ 64`
  cells, so `usize` arithmetic on indices of allocated cells cannot wrap;
  the idealisation is harmless for every claim considered here.
* The neighbour-candidate counter in `get_neighbors` is a `u32`
  (`3_u32.pow(num_dimensions)` in the source).  Its wrap-around is reachable
  for boards of dimensionality at least 21, so it is modelled exactly, as
  `3 ^ n % 2 ^ 32`.
* The adjacent-mine counter is a `u8` (`adjacent_mines: u8` in `cell.rs`);
  its wrap-around is reachable for boards of dimensionality at least 6, so
  the accumulation is modelled exactly, as addition modulo `2 ^ 8 = 256`.
  (In a debug build the Rust overflow would panic instead; either way the
  stored count differs from the claim at the inputs exhibited below.)
* Rust indexing `v[i]` panics when out of range.  The embedding reads with
  `List.getD` and writes with a positional `set` that ignores out-of-range
  indices; every theorem below either supplies in-range hypotheses or
  exercises inputs on which the source performs no out-of-range access.
* `Board::place_mines` draws `min num_mines total` distinct in-range
  indices from the `rand` crate (code outside this repository).  The drawn
  sample is made an explicit parameter `chosen`; the sampling contract
  (`Nodup`, in range, length `min num_mines total`) appears as hypotheses.
-/

namespace Minesweeper

/-! ### Coordinate mapper (`src/coordinates.rs`) -/

/-- Row-major (mixed-radix) encoding of `src/coordinates.rs::to_index`:
the source loop keeps a running `stride`, multiplied by `dimensions[i-1]`
before axis `i` is added, which is exactly the recursion
`to_index (c :: cs) (d :: ds) = c + d * to_index cs ds`.
A lone trailing coordinate past the end of `dimensions` is added with the
current stride (the source would read `dimensions[i-1]` for a second one,
so valid inputs have `coords.length = dimensions.length`). -/
def to_index : List Nat → List Nat → Nat
  | [], _ => 0
  | c :: _, [] => c
  | c :: cs, d :: ds => c + d * to_index cs ds

/-- Decoding of `src/coordinates.rs::to_coords`.  The source first builds
`stride = d_0 * ... * d_{n-2}` (all extents but the last) and then peels
digits from the most significant axis down; the least significant axes come
out as `index % d_i` while the last axis keeps the unreduced quotient
(`index / stride` is not reduced modulo the final extent). -/
def to_coords : Nat → List Nat → List Nat
  | _, [] => []
  | index, [_] => [index]
  | index, d :: ds => (index % d) :: to_coords (index / d) ds

/-- One candidate of the neighbour loop in
`src/coordinates.rs::get_neighbors`: the base-3 digits of `n` give one
offset per axis (least significant digit = axis 0), via
`offset = (n % 3) as i32 - 1`.  The digit cases write the source's i32
arithmetic out in `Nat`: digit `0` is offset `-1` (guarded by the source's
underflow check `offset == -1 && coord == 0`, after which
`(coord as i32 - 1) as usize = c - 1`), digit `1` is offset `0`, digit `2`
is offset `+1`.  A candidate is dropped (`continue 'outer`) as soon as an
axis underflows or reaches the extent (`new_coord >= dimensions[j]`).
The source indexes `dimensions[j]` for every axis of the coordinate, so a
coordinate axis without a matching extent yields no candidate. -/
def applyOffsets : List Nat → List Nat → Nat → Option (List Nat)
  | [], _, _ => some []
  | _ :: _, [], _ => none
  | c :: cs, d :: ds, n =>
    match n % 3 with
    | 0 =>
      if c = 0 then none
      else if d ≤ c - 1 then none
      else (applyOffsets cs ds (n / 3)).map (fun rest => (c - 1) :: rest)
    | 1 =>
      if d ≤ c then none
      else (applyOffsets cs ds (n / 3)).map (fun rest => c :: rest)
    | _ =>
      if d ≤ c + 1 then none
      else (applyOffsets cs ds (n / 3)).map (fun rest => (c + 1) :: rest)

/-- Embedding of `src/coordinates.rs::get_neighbors`.  The candidate count
`3_u32.pow(num_dimensions)` is a `u32`, hence the reduction modulo `2 ^ 32`;
the centre index `(count - 1) / 2` (all offsets zero) is skipped. -/
def get_neighbors (coords dimensions : List Nat) : List (List Nat) :=
  if coords.length = 0 then []
  else
    let num_neighbors_to_check := 3 ^ coords.length % 2 ^ 32
    let center_index := (num_neighbors_to_check - 1) / 2
    ((List.range num_neighbors_to_check).filter (fun i => i ≠ center_index)).filterMap
      (applyOffsets coords dimensions)

/-! ### Spec-side coordinate predicates -/

/-- A coordinate is valid for a shape when the lengths agree and every
component is strictly below the matching extent (spec section 3). -/
def validCoords : List Nat → List Nat → Bool
  | [], [] => true
  | c :: cs, d :: ds => c < d && validCoords cs ds
  | _, _ => false

/-- Spec-side Moore adjacency: `a` is reachable from `c` by shifting each
axis independently by −1, 0 or +1 and stays inside the shape on every axis
(spec section 4.1).  The centre itself satisfies this predicate; the
neighbour relation additionally requires `a ≠ c`. -/
def adjacentTo : List Nat → List Nat → List Nat → Bool
  | [], [], [] => true
  | a :: as, c :: cs, d :: ds =>
    a ≤ c + 1 && c ≤ a + 1 && a < d && adjacentTo as cs ds
  | _, _, _ => false

/-- A cell is interior when every axis can move one step both ways (spec
section 8: no axis at `0` or at `extent − 1`). -/
def interior : List Nat → List Nat → Bool
  | [], [] => true
  | c :: cs, d :: ds => 0 < c && c + 1 < d && interior cs ds
  | _, _ => false

/-! ### Cells (`src/cell.rs`) -/

/-- Visibility of a cell (`src/cell.rs::CellState`). -/
inductive CellState where
  | Hidden
  | Revealed
  | Flagged
deriving DecidableEq, Repr

/-- Content of a cell (`src/cell.rs::CellKind`).  The adjacent-mine count
is a `u8` in the source; it is carried here as the `Nat` the `u8` stores,
always below `256` (the accumulation writing it reduces modulo `256`). -/
inductive CellKind where
  | Mine
  | Empty (adjacent_mines : Nat)
deriving DecidableEq, Repr

/-- A cell of the board (`src/cell.rs::Cell`). -/
structure Cell where
  state : CellState
  kind : CellKind
deriving DecidableEq, Repr

/-- `Cell::new`: hidden and empty with a zero count. -/
def Cell.new : Cell :=
  { state := CellState.Hidden, kind := CellKind.Empty 0 }

/-! ### Board (`src/board.rs`) -/

/-- The board: dimensions, flat cell vector, requested mine count. -/
structure Board where
  dimensions : List Nat
  cells : List Cell
  num_mines : Nat
deriving DecidableEq, Repr

/-- Write the content of cell `index`, leaving its visibility alone
(the assignment `cells[index].kind = ...`); out-of-range writes, which
would panic in Rust, leave the list unchanged. -/
def setKind : List Cell → Nat → CellKind → List Cell
  | [], _, _ => []
  | cell :: cs, 0, k => { cell with kind := k } :: cs
  | cell :: cs, n + 1, k => cell :: setKind cs n k

/-- Write the visibility of cell `index`, leaving its content alone
(the assignment `cells[index].state = ...`); out-of-range writes, which
would panic in Rust, leave the list unchanged. -/
def setState : List Cell → Nat → CellState → List Cell
  | [], _, _ => []
  | cell :: cs, 0, s => { cell with state := s } :: cs
  | cell :: cs, n + 1, s => cell :: setState cs n s

/-- `Board::place_mines`: turn each chosen flat index into a mine.  The
random sample `chosen_indices` drawn from the `rand` crate is the explicit
argument `chosen`; the loop body is `cells[index].kind = CellKind::Mine`. -/
def place_mines (cells : List Cell) (chosen : List Nat) : List Cell :=
  chosen.foldl (fun cs index => setKind cs index CellKind.Mine) cells

/-- The adjacent-mine counter loop of
`Board::calculate_adjacent_mines` for the cell at `coords`: iterate over
`get_neighbors`, look each neighbour up through `to_index`, and bump a
`u8` counter (`mine_count += 1` wraps modulo `256` in a release build) for
every neighbour whose content is a mine. -/
def mine_count_at (cells : List Cell) (dims : List Nat) (coords : List Nat) : Nat :=
  (get_neighbors coords dims).foldl
    (fun mine_count neighbor_coords =>
      if (cells.getD (to_index neighbor_coords dims) Cell.new).kind = CellKind.Mine
      then (mine_count + 1) % 256
      else mine_count) 0

/-- One iteration of the `Board::calculate_adjacent_mines` loop: mines are
skipped, and an empty cell's count is overwritten with the mine count of
its neighbourhood, computed from the current cells. -/
def calc_cell (dims : List Nat) (cells : List Cell) (i : Nat) : List Cell :=
  if (cells.getD i Cell.new).kind = CellKind.Mine then cells
  else setKind cells i (CellKind.Empty (mine_count_at cells dims (to_coords i dims)))

/-- `Board::calculate_adjacent_mines`: the loop `for i in 0..cells.len()`. -/
def calculate_adjacent_mines (b : Board) : Board :=
  { b with cells := (List.range b.cells.length).foldl (calc_cell b.dimensions) b.cells }

/-- `Board::new`: allocate `product(dimensions)` fresh cells, place the
drawn mines, then precompute every adjacent-mine count.  `chosen` stands
for the sample `choose_multiple` draws (see the module comment); no
validation of any argument is performed, faithfully to the source. -/
def Board.new (dimensions : List Nat) (chosen : List Nat) (num_mines : Nat) : Board :=
  let total_cells := dimensions.prod
  let cells := List.replicate total_cells Cell.new
  calculate_adjacent_mines
    { dimensions := dimensions, cells := place_mines cells chosen, num_mines := num_mines }

/-- `Board::toggle_flag`: hidden toggles to flagged, flagged back to
hidden, revealed is left alone; the source's `get_mut` makes an
out-of-range index a no-op. -/
def Board.toggle_flag (b : Board) (coords : List Nat) : Board :=
  let index := to_index coords b.dimensions
  if index < b.cells.length then
    match (b.cells.getD index Cell.new).state with
    | CellState.Hidden => { b with cells := setState b.cells index CellState.Flagged }
    | CellState.Flagged => { b with cells := setState b.cells index CellState.Hidden }
    | CellState.Revealed => b
  else b

/-- `Board::reveal`, with an explicit recursion budget.  The source
recurses without a budget; `reveal_spends_fuel` below shows that any
budget above the number of unrevealed cells gives the same answer, which
is the precise sense in which the source recursion terminates.  A
flagged or already revealed cell is a no-op returning `false`; otherwise
the cell is revealed, a mine returns `true`, and a zero-count empty cell
folds the recursive reveal over its neighbours, discarding their results
(`self.reveal(&neighbor_coords);`).  The match on the content happens
after the state write in the source; the write does not touch the
content, so reading it from the looked-up cell is the same. -/
def revealFuel : Nat → Board → List Nat → Board × Bool
  | 0, b, _ => (b, false)
  | fuel + 1, b, coords =>
    let index := to_index coords b.dimensions
    let cell := b.cells.getD index Cell.new
    if cell.state = CellState.Flagged ∨ cell.state = CellState.Revealed then (b, false)
    else
      let b1 : Board := { b with cells := setState b.cells index CellState.Revealed }
      match cell.kind with
      | CellKind.Mine => (b1, true)
      | CellKind.Empty adjacent_mines =>
        if adjacent_mines = 0 then
          ((get_neighbors coords b.dimensions).foldl
            (fun acc neighbor_coords => (revealFuel fuel acc neighbor_coords).1) b1, false)
        else (b1, false)

/-- `Board::reveal` proper: the budget `cells.length + 1` is enough for
any call (shown by `reveal_spends_fuel` together with
`unrevealedCount_le`), so this is the function the source computes. -/
def Board.reveal (b : Board) (coords : List Nat) : Board × Bool :=
  revealFuel (b.cells.length + 1) b coords

/-! ### Game (`src/game.rs`) -/

/-- The game progress state (`src/game.rs::GameState`). -/
inductive GameState where
  | InProgress
  | Won
  | Lost
deriving DecidableEq, Repr

/-- The game: one board plus the progress state (`src/game.rs::Game`). -/
structure Game where
  board : Board
  state : GameState
deriving DecidableEq, Repr

/-- `Game::new`: a fresh board, state `InProgress`. -/
def Game.new (dimensions : List Nat) (chosen : List Nat) (num_mines : Nat) : Game :=
  { board := Board.new dimensions chosen num_mines, state := GameState.InProgress }

/-- `Game::toggle_flag`: delegates to the board only while in progress. -/
def Game.toggle_flag (g : Game) (coords : List Nat) : Game :=
  if g.state = GameState.InProgress then { g with board := g.board.toggle_flag coords }
  else g

/-- `Game::is_won`: every cell is a mine exactly when it is not revealed. -/
def Game.is_won (g : Game) : Bool :=
  g.board.cells.all
    (fun cell => decide (cell.kind ≠ CellKind.Mine) == decide (cell.state = CellState.Revealed))

/-- `Game::reveal`: a no-op unless in progress; otherwise delegate to
`Board::reveal`, then a mine hit moves to `Lost`, a won board to `Won`. -/
def Game.reveal (g : Game) (coords : List Nat) : Game :=
  if g.state = GameState.InProgress then
    let r := g.board.reveal coords
    let g' : Game := { g with board := r.1 }
    if r.2 then { g' with state := GameState.Lost }
    else if g'.is_won then { g' with state := GameState.Won }
    else g'
  else g

/-! ### Spec-side board measures and reachability -/

/-- Number of mine cells on the board (spec section 3 invariant). -/
def mineCount (b : Board) : Nat :=
  b.cells.countP (fun cell => decide (cell.kind = CellKind.Mine))

/-- Number of cells not yet revealed; the measure that bounds the depth of
the reveal recursion. -/
def unrevealedCount (b : Board) : Nat :=
  b.cells.countP (fun cell => decide (cell.state ≠ CellState.Revealed))

/-- A board is zero-honest when a stored zero count really means the
neighbourhood is mine-free.  `Board::new` guarantees this whenever no
count wraps the `u8` (in particular for dimensionality at most 5); it is
exactly what the flood-fill safety argument of the spec needs. -/
def zeroHonest (b : Board) : Prop :=
  ∀ i, i < b.cells.length →
    (b.cells.getD i Cell.new).kind = CellKind.Empty 0 →
    ∀ a, a ∈ get_neighbors (to_coords i b.dimensions) b.dimensions →
      (b.cells.getD (to_index a b.dimensions) Cell.new).kind ≠ CellKind.Mine

/-- No mine cell is revealed (the safety property of claim C10). -/
def noMineRevealed (b : Board) : Prop :=
  ∀ j, (b.cells.getD j Cell.new).kind = CellKind.Mine →
    (b.cells.getD j Cell.new).state ≠ CellState.Revealed

/-- How a board may change under play: the shape, the requested mine
count, the cell count and every cell's content are untouched, and a
cell's visibility either stays what it was or has become `Revealed`. -/
def Evolves (b b' : Board) : Prop :=
  b'.dimensions = b.dimensions ∧ b'.num_mines = b.num_mines ∧
  b'.cells.length = b.cells.length ∧
  (∀ j, (b'.cells.getD j Cell.new).kind = (b.cells.getD j Cell.new).kind) ∧
  (∀ j, (b'.cells.getD j Cell.new).state = (b.cells.getD j Cell.new).state ∨
    (b'.cells.getD j Cell.new).state = CellState.Revealed)

instance zeroHonest_decidable (b : Board) : Decidable (zeroHonest b) := by
  unfold zeroHonest
  infer_instance

/-- Game states reachable from `Game::new` by engine calls whose
coordinates are valid for the board's shape.  The constructor `new`
carries the documented contract of `choose_multiple`: a duplicate-free
in-range sample of `min num_mines total` indices. -/
inductive ReachableValid : Game → Prop where
  | new : ∀ (dimensions chosen : List Nat) (num_mines : Nat),
      chosen.Nodup → (∀ j ∈ chosen, j < dimensions.prod) →
      chosen.length = min num_mines dimensions.prod →
      ReachableValid (Game.new dimensions chosen num_mines)
  | reveal : ∀ (g : Game) (coords : List Nat), ReachableValid g →
      validCoords coords g.board.dimensions = true → ReachableValid (g.reveal coords)
  | flag : ∀ (g : Game) (coords : List Nat), ReachableValid g →
      validCoords coords g.board.dimensions = true → ReachableValid (g.toggle_flag coords)

/-- Spec-side adjacent-mine count: the exact number of neighbours whose
content is a mine, with no `u8` reduction (spec section 3: "adjacent-mine
count equal to the number of immediate neighbors whose content is Mine"). -/
def mine_neighbor_total (cells : List Cell) (dims coords : List Nat) : Nat :=
  (get_neighbors coords dims).countP
    (fun a => decide ((cells.getD (to_index a dims) Cell.new).kind = CellKind.Mine))

/-! ### Concrete boards used by the examples below -/

/-- A six-dimensional shape on which a cell has more than 255 neighbours:
`3 * 3 * 3 * 3 * 2 * 2 = 324` cells, and the cell at `[1,1,1,1,0,0]`
(flat index 40) is adjacent to all 323 other cells. -/
def bigDims : List Nat := [3, 3, 3, 3, 2, 2]

/-- 256 mine indices for `bigDims`, all of them neighbours of flat index
40: every index below 257 except 40 itself. -/
def bigChosen : List Nat := (List.range 257).filter (fun i => i ≠ 40)

/-- The six-dimensional board with exactly 256 mines, every one adjacent
to the cell at flat index 40: that cell's true neighbour-mine count is
256, which the `u8` accumulator stores as `256 % 256 = 0`. -/
def bigBoard : Board := Board.new bigDims bigChosen 256

/-! ### Basic facts about the codec -/

theorem to_index_cons (c d : Nat) (cs ds : List Nat) :
    to_index (c :: cs) (d :: ds) = c + d * to_index cs ds := rfl

theorem validCoords_length {cs ds : List Nat} (h : validCoords cs ds = true) :
    cs.length = ds.length := by
  induction cs generalizing ds with
  | nil => cases ds with
    | nil => rfl
    | cons d ds => simp [validCoords] at h
  | cons c cs ih =>
    cases ds with
    | nil => simp [validCoords] at h
    | cons d ds =>
      simp only [validCoords, Bool.and_eq_true] at h
      simp [ih h.2]

theorem to_coords_to_index {cs ds : List Nat} (h : validCoords cs ds = true) :
    to_coords (to_index cs ds) ds = cs := by
  induction cs generalizing ds with
  | nil =>
    cases ds with
    | nil => rfl
    | cons d ds => simp [validCoords] at h
  | cons c cs ih =>
    cases ds with
    | nil => simp [validCoords] at h
    | cons d ds =>
      simp only [validCoords, Bool.and_eq_true, decide_eq_true_eq] at h
      obtain ⟨hc, hrest⟩ := h
      cases cs with
      | nil =>
        have : ds = [] := by
          have := validCoords_length hrest
          simpa using this.symm
        subst this
        simp [to_index, to_coords, Nat.mod_eq_of_lt hc]
      | cons c2 cs2 =>
        have hds : ds ≠ [] := by
          have := validCoords_length hrest
          intro hnil
          subst hnil
          simp at this
        cases ds with
        | nil => exact absurd rfl hds
        | cons d2 ds2 =>
          have hx : to_coords (to_index (c :: c2 :: cs2) (d :: d2 :: ds2)) (d :: d2 :: ds2)
              = ((c + d * to_index (c2 :: cs2) (d2 :: ds2)) % d)
                :: to_coords ((c + d * to_index (c2 :: cs2) (d2 :: ds2)) / d) (d2 :: ds2) := rfl
          rw [hx]
          have hmod : (c + d * to_index (c2 :: cs2) (d2 :: ds2)) % d = c := by
            rw [Nat.add_mul_mod_self_left, Nat.mod_eq_of_lt hc]
          have hdiv : (c + d * to_index (c2 :: cs2) (d2 :: ds2)) / d
              = to_index (c2 :: cs2) (d2 :: ds2) := by
            rw [Nat.add_mul_div_left _ _ (Nat.lt_of_le_of_lt (Nat.zero_le _) hc),
              Nat.div_eq_of_lt hc]
            omega
          rw [hmod, hdiv, ih hrest]

/-- Valid coordinates encode below the total cell count. -/
theorem to_index_lt_prod {cs ds : List Nat} (h : validCoords cs ds = true) :
    to_index cs ds < ds.prod := by
  induction cs generalizing ds with
  | nil =>
    cases ds with
    | nil => simp [to_index]
    | cons d ds => simp [validCoords] at h
  | cons c cs ih =>
    cases ds with
    | nil => simp [validCoords] at h
    | cons d ds =>
      simp only [validCoords, Bool.and_eq_true, decide_eq_true_eq] at h
      obtain ⟨hc, hrest⟩ := h
      have := ih hrest
      simp only [to_index_cons, List.prod_cons]
      calc c + d * to_index cs ds ≤ (d - 1) + d * (ds.prod - 1) := by
            apply Nat.add_le_add (Nat.le_sub_one_of_lt hc)
            exact Nat.mul_le_mul_left d (Nat.le_sub_one_of_lt this)
        _ < d * ds.prod := by
            have hd : 1 ≤ d := Nat.lt_of_le_of_lt (Nat.zero_le _) hc
            have hp : 1 ≤ ds.prod := Nat.lt_of_le_of_lt (Nat.zero_le _) this
            have h1 : d * (ds.prod - 1) = d * ds.prod - d := by
              rw [Nat.mul_sub]
              omega
            have h2 : d ≤ d * ds.prod := Nat.le_mul_of_pos_right d hp
            omega

theorem to_coords_length (i : Nat) (ds : List Nat) : (to_coords i ds).length = ds.length := by
  induction ds generalizing i with
  | nil => rfl
  | cons d ds ih =>
    cases ds with
    | nil => rfl
    | cons d2 ds2 => simp only [to_coords, List.length_cons, ih]

/-! ### The neighbour candidate loop, digit by digit -/

/-- Workhorse characterisation of one candidate of the neighbour loop: the
produced head is `c + n % 3 - 1` (truncated at zero, which the underflow
guard rules out), the tail recurses on `n / 3`, and the bounds checks of the
source appear as side conditions. -/
theorem applyOffsets_cons_iff (c d n : Nat) (cs ds : List Nat) (a : List Nat) :
    applyOffsets (c :: cs) (d :: ds) n = some a ↔
      ∃ t, applyOffsets cs ds (n / 3) = some t ∧ a = (c + n % 3 - 1) :: t ∧
        (n % 3 = 0 → 1 ≤ c) ∧ c + n % 3 - 1 < d := by
  have h3 : n % 3 = 0 ∨ n % 3 = 1 ∨ n % 3 = 2 := by omega
  rcases h3 with h | h | h
  · simp only [applyOffsets, h]
    constructor
    · intro hsome
      by_cases hc : c = 0
      · rw [if_pos hc] at hsome
        cases hsome
      · rw [if_neg hc] at hsome
        by_cases hd : d ≤ c - 1
        · rw [if_pos hd] at hsome
          cases hsome
        · rw [if_neg hd, Option.map_eq_some'] at hsome
          obtain ⟨t, ht, hat⟩ := hsome
          refine ⟨t, ht, ?_, fun _ => by omega, by omega⟩
          rw [← hat]
          norm_num
    · rintro ⟨t, ht, rfl, hc, hd⟩
      have hc' := hc trivial
      rw [if_neg (by omega), if_neg (by omega), Option.map_eq_some']
      exact ⟨t, ht, by norm_num⟩
  · simp only [applyOffsets, h]
    constructor
    · intro hsome
      by_cases hd : d ≤ c
      · rw [if_pos hd] at hsome
        cases hsome
      · rw [if_neg hd, Option.map_eq_some'] at hsome
        obtain ⟨t, ht, hat⟩ := hsome
        refine ⟨t, ht, ?_, fun hh => by omega, by omega⟩
        rw [← hat]
        norm_num
    · rintro ⟨t, ht, rfl, _, hd⟩
      rw [if_neg (by omega), Option.map_eq_some']
      exact ⟨t, ht, by norm_num⟩
  · simp only [applyOffsets, h]
    constructor
    · intro hsome
      by_cases hd : d ≤ c + 1
      · rw [if_pos hd] at hsome
        cases hsome
      · rw [if_neg hd, Option.map_eq_some'] at hsome
        obtain ⟨t, ht, hat⟩ := hsome
        refine ⟨t, ht, ?_, fun hh => by omega, by omega⟩
        rw [← hat]
        norm_num
    · rintro ⟨t, ht, rfl, _, hd⟩
      rw [if_neg (by omega), Option.map_eq_some']
      exact ⟨t, ht, by norm_num⟩

/-- Every candidate the loop emits is Moore-adjacent and in bounds. -/
theorem applyOffsets_adjacentTo :
    ∀ {cs ds a : List Nat} {n : Nat}, cs.length = ds.length →
      applyOffsets cs ds n = some a → adjacentTo a cs ds = true := by
  intro cs
  induction cs with
  | nil =>
    intro ds a n hlen h
    cases ds with
    | nil =>
      cases h
      rfl
    | cons d ds => simp at hlen
  | cons c cs ih =>
    intro ds a n hlen h
    cases ds with
    | nil => exact absurd h (by simp [applyOffsets])
    | cons d ds =>
      rw [applyOffsets_cons_iff] at h
      obtain ⟨t, ht, rfl, hc, hd⟩ := h
      have hm : n % 3 < 3 := Nat.mod_lt _ (by omega)
      simp only [adjacentTo, Bool.and_eq_true, decide_eq_true_eq]
      refine ⟨⟨⟨by omega, by omega⟩, by omega⟩, ?_⟩
      exact ih (by simpa using hlen) ht

/-- Every Moore-adjacent in-bounds coordinate is emitted by some candidate
index below `3 ^ N`. -/
theorem adjacentTo_applyOffsets :
    ∀ {a cs ds : List Nat}, adjacentTo a cs ds = true →
      ∃ n, n < 3 ^ cs.length ∧ applyOffsets cs ds n = some a := by
  intro a
  induction a with
  | nil =>
    intro cs ds h
    cases cs with
    | nil =>
      cases ds with
      | nil => exact ⟨0, by norm_num, rfl⟩
      | cons d ds => simp [adjacentTo] at h
    | cons c cs => simp [adjacentTo] at h
  | cons x a ih =>
    intro cs ds h
    cases cs with
    | nil => simp [adjacentTo] at h
    | cons c cs =>
      cases ds with
      | nil => simp [adjacentTo] at h
      | cons d ds =>
        simp only [adjacentTo, Bool.and_eq_true, decide_eq_true_eq] at h
        obtain ⟨⟨⟨hx1, hx2⟩, hxd⟩, hrest⟩ := h
        obtain ⟨m, hm, hms⟩ := ih hrest
        refine ⟨(x + 1 - c) + 3 * m, ?_, ?_⟩
        · simp only [List.length_cons]
          have hp := Nat.pow_succ 3 cs.length
          omega
        · rw [applyOffsets_cons_iff]
          have hmod : (x + 1 - c + 3 * m) % 3 = x + 1 - c := by omega
          have hdiv : (x + 1 - c + 3 * m) / 3 = m := by omega
          rw [hmod, hdiv]
          exact ⟨a, hms, by congr 1; omega, by omega, by omega⟩

/-- Two candidate indices below `3 ^ N` emitting the same coordinate are
equal: the emitted coordinate determines every base-3 digit. -/
theorem applyOffsets_inj :
    ∀ {cs ds a : List Nat} {n m : Nat},
      applyOffsets cs ds n = some a → applyOffsets cs ds m = some a →
      n < 3 ^ cs.length → m < 3 ^ cs.length → n = m := by
  intro cs
  induction cs with
  | nil =>
    intro ds a n m _ _ hn hm
    simp at hn hm
    omega
  | cons c cs ih =>
    intro ds a n m hn hm hnb hmb
    cases ds with
    | nil => exact absurd hn (by simp [applyOffsets])
    | cons d ds =>
      rw [applyOffsets_cons_iff] at hn hm
      obtain ⟨t, ht, hat, hc, _⟩ := hn
      obtain ⟨t2, ht2, hat2, hc2, _⟩ := hm
      rw [hat] at hat2
      injection hat2 with hhead htail
      subst htail
      simp only [List.length_cons] at hnb hmb
      have hp := Nat.pow_succ 3 cs.length
      have h1 : n % 3 < 3 := Nat.mod_lt _ (by omega)
      have h2 : m % 3 < 3 := Nat.mod_lt _ (by omega)
      have hcn : n % 3 ≠ 0 ∨ 1 ≤ c := by
        by_cases h : n % 3 = 0
        · exact Or.inr (hc h)
        · exact Or.inl h
      have hcm : m % 3 ≠ 0 ∨ 1 ≤ c := by
        by_cases h : m % 3 = 0
        · exact Or.inr (hc2 h)
        · exact Or.inl h
      have hmod : n % 3 = m % 3 := by omega
      have hdivlt : n / 3 < 3 ^ cs.length := by omega
      have hdivlt2 : m / 3 < 3 ^ cs.length := by omega
      have := ih ht ht2 hdivlt hdivlt2
      omega

/-- The centre candidate index, written as the source computes it. -/
theorem center_succ (k : Nat) : (3 ^ (k + 1) - 1) / 2 = 3 * ((3 ^ k - 1) / 2) + 1 := by
  have hodd : 3 ^ k % 2 = 1 := by
    rw [Nat.pow_mod]
    simp
  have hpos : 1 ≤ 3 ^ k := Nat.one_le_pow _ _ (by omega)
  have hsucc : 3 ^ (k + 1) = 3 * 3 ^ k := by
    rw [pow_succ]
    ring
  omega

/-- The only candidate below `3 ^ N` that reproduces the centre is the
skipped centre index. -/
theorem applyOffsets_eq_center :
    ∀ {cs ds : List Nat} {n : Nat},
      applyOffsets cs ds n = some cs → n < 3 ^ cs.length →
      n = (3 ^ cs.length - 1) / 2 := by
  intro cs
  induction cs with
  | nil =>
    intro ds n _ hn
    simp at hn
    simp [hn]
  | cons c cs ih =>
    intro ds n h hn
    cases ds with
    | nil => exact absurd h (by simp [applyOffsets])
    | cons d ds =>
      rw [applyOffsets_cons_iff] at h
      obtain ⟨t, ht, hat, hc, _⟩ := h
      injection hat with hhead htail
      rw [← htail] at ht
      simp only [List.length_cons] at hn ⊢
      have hp := Nat.pow_succ 3 cs.length
      have h3 : n % 3 < 3 := Nat.mod_lt _ (by omega)
      have hcn : n % 3 ≠ 0 ∨ 1 ≤ c := by
        by_cases h0 : n % 3 = 0
        · exact Or.inr (hc h0)
        · exact Or.inl h0
      have hmod : n % 3 = 1 := by omega
      have hdivlt : n / 3 < 3 ^ cs.length := by omega
      have hrec := ih ht hdivlt
      have hcent := center_succ cs.length
      omega

/-- The skipped centre index reproduces the centre whenever it produces
anything at all. -/
theorem applyOffsets_center :
    ∀ {cs ds a : List Nat},
      applyOffsets cs ds ((3 ^ cs.length - 1) / 2) = some a → a = cs := by
  intro cs
  induction cs with
  | nil =>
    intro ds a h
    cases h
    rfl
  | cons c cs ih =>
    intro ds a h
    cases ds with
    | nil => exact absurd h (by simp [applyOffsets])
    | cons d ds =>
      have hcent := center_succ cs.length
      simp only [List.length_cons] at h
      rw [applyOffsets_cons_iff] at h
      obtain ⟨t, ht, hat, _, _⟩ := h
      have hmod : (3 ^ (cs.length + 1) - 1) / 2 % 3 = 1 := by omega
      have hdiv : (3 ^ (cs.length + 1) - 1) / 2 / 3 = (3 ^ cs.length - 1) / 2 := by omega
      rw [hdiv] at ht
      have hts := ih ht
      subst hts
      simp [hat, hmod]

/-- Emitted candidates keep the dimensionality of the centre. -/
theorem applyOffsets_length :
    ∀ {cs ds a : List Nat} {n : Nat}, applyOffsets cs ds n = some a → a.length = cs.length := by
  intro cs
  induction cs with
  | nil =>
    intro ds a n h
    cases h
    rfl
  | cons c cs ih =>
    intro ds a n h
    cases ds with
    | nil => exact absurd h (by simp [applyOffsets])
    | cons d ds =>
      rw [applyOffsets_cons_iff] at h
      obtain ⟨t, ht, rfl, _, _⟩ := h
      simp [ih ht]

/-- Moore-adjacent coordinates are valid coordinates. -/
theorem adjacentTo_validCoords :
    ∀ {a cs ds : List Nat}, adjacentTo a cs ds = true → validCoords a ds = true := by
  intro a
  induction a with
  | nil =>
    intro cs ds h
    cases cs with
    | nil =>
      cases ds with
      | nil => rfl
      | cons d ds => simp [adjacentTo] at h
    | cons c cs => simp [adjacentTo] at h
  | cons x a ih =>
    intro cs ds h
    cases cs with
    | nil => simp [adjacentTo] at h
    | cons c cs =>
      cases ds with
      | nil => simp [adjacentTo] at h
      | cons d ds =>
        simp only [adjacentTo, Bool.and_eq_true, decide_eq_true_eq] at h
        obtain ⟨⟨_, hxd⟩, hrest⟩ := h
        simp only [validCoords, Bool.and_eq_true, decide_eq_true_eq]
        exact ⟨hxd, ih hrest⟩

/-- Unfolding of `get_neighbors` on a nonempty coordinate. -/
theorem get_neighbors_def {coords dims : List Nat} (h0 : coords.length ≠ 0) :
    get_neighbors coords dims =
      ((List.range (3 ^ coords.length % 2 ^ 32)).filter
        (fun i => i ≠ (3 ^ coords.length % 2 ^ 32 - 1) / 2)).filterMap
        (applyOffsets coords dims) := by
  simp only [get_neighbors, if_neg h0]

/-- Everything `get_neighbors` returns is Moore-adjacent and in bounds.
This direction needs no bound on the dimensionality: each emitted
candidate is bounds-checked on every axis regardless of the `u32` wrap in
the candidate count. -/
theorem get_neighbors_sound {coords dims a : List Nat}
    (hlen : coords.length = dims.length) (h : a ∈ get_neighbors coords dims) :
    adjacentTo a coords dims = true := by
  by_cases h0 : coords.length = 0
  · rw [show get_neighbors coords dims = [] from by simp [get_neighbors, h0]] at h
    cases h
  · rw [get_neighbors_def h0] at h
    simp only [List.mem_filterMap] at h
    obtain ⟨n, _, hsome⟩ := h
    exact applyOffsets_adjacentTo hlen hsome

/-- Characterisation of the neighbour list, valid as long as `3 ^ N` fits
in the `u32` candidate counter: a coordinate is returned iff it is
Moore-adjacent, in bounds, and not the centre itself. -/
theorem mem_get_neighbors_iff {coords dims : List Nat}
    (hlen : coords.length = dims.length) (hsmall : 3 ^ coords.length < 2 ^ 32)
    (a : List Nat) :
    a ∈ get_neighbors coords dims ↔ (adjacentTo a coords dims = true ∧ a ≠ coords) := by
  by_cases h0 : coords.length = 0
  · rw [show get_neighbors coords dims = [] from by simp [get_neighbors, h0]]
    have hc : coords = [] := List.length_eq_zero.mp h0
    subst hc
    have hd : dims = [] := List.length_eq_zero.mp hlen.symm
    subst hd
    constructor
    · intro h
      cases h
    · rintro ⟨ha, hne⟩
      cases a with
      | nil => exact absurd rfl hne
      | cons x xs => simp [adjacentTo] at ha
  · rw [get_neighbors_def h0]
    simp only [Nat.mod_eq_of_lt hsmall]
    constructor
    · intro h
      rw [List.mem_filterMap] at h
      obtain ⟨n, hn, hsome⟩ := h
      rw [List.mem_filter, List.mem_range] at hn
      obtain ⟨hnlt, hnne⟩ := hn
      refine ⟨applyOffsets_adjacentTo hlen hsome, ?_⟩
      intro heq
      rw [heq] at hsome
      have hnc : n ≠ (3 ^ coords.length - 1) / 2 := by simpa using hnne
      exact hnc (applyOffsets_eq_center hsome hnlt)
    · rintro ⟨ha, hne⟩
      obtain ⟨n, hnlt, hsome⟩ := adjacentTo_applyOffsets ha
      rw [List.mem_filterMap]
      refine ⟨n, ?_, hsome⟩
      rw [List.mem_filter, List.mem_range]
      refine ⟨hnlt, ?_⟩
      have hnc : n ≠ (3 ^ coords.length - 1) / 2 := by
        intro hcen
        subst hcen
        exact hne (applyOffsets_center hsome)
      simpa using hnc

/-- On an interior cell no candidate is clipped. -/
theorem interior_applyOffsets_isSome :
    ∀ {cs ds : List Nat}, interior cs ds = true →
      ∀ n, (applyOffsets cs ds n).isSome = true := by
  intro cs
  induction cs with
  | nil =>
    intro ds h n
    cases ds with
    | nil => rfl
    | cons d ds => simp [interior] at h
  | cons c cs ih =>
    intro ds h n
    cases ds with
    | nil => simp [interior] at h
    | cons d ds =>
      simp only [interior, Bool.and_eq_true, decide_eq_true_eq] at h
      obtain ⟨⟨hc, hd⟩, hrest⟩ := h
      obtain ⟨t, ht⟩ := Option.isSome_iff_exists.mp (ih hrest (n / 3))
      have hm : n % 3 < 3 := Nat.mod_lt _ (by omega)
      have : applyOffsets (c :: cs) (d :: ds) n = some ((c + n % 3 - 1) :: t) := by
        rw [applyOffsets_cons_iff]
        exact ⟨t, ht, rfl, fun _ => by omega, by omega⟩
      rw [this]
      rfl

/-- `filterMap` of an everywhere-successful function keeps the length. -/
theorem length_filterMap_eq {α β : Type} (f : α → Option β) :
    ∀ (l : List α), (∀ x ∈ l, (f x).isSome = true) → (l.filterMap f).length = l.length := by
  intro l
  induction l with
  | nil => intro _; rfl
  | cons x l ih =>
    intro h
    obtain ⟨b, hb⟩ := Option.isSome_iff_exists.mp (h x (by simp))
    simp only [List.filterMap_cons, hb, List.length_cons]
    rw [ih (fun y hy => h y (by simp [hy]))]

/-- Removing one present element from `range n` by filtering. -/
theorem length_filter_range_ne (n c : Nat) (hc : c < n) :
    ((List.range n).filter (fun i => i ≠ c)).length = n - 1 := by
  induction n with
  | zero => omega
  | succ m ih =>
    rw [List.range_succ, List.filter_append, List.length_append]
    by_cases hcm : c = m
    · subst hcm
      have h1 : (List.range c).filter (fun i => i ≠ c) = List.range c := by
        rw [List.filter_eq_self]
        intro x hx
        rw [List.mem_range] at hx
        have : x ≠ c := by omega
        simpa using this
      have h2 : [c].filter (fun i => i ≠ c) = [] := by simp
      rw [h1, h2]
      simp
    · have hlt : c < m := by omega
      have h2 : [m].filter (fun i => i ≠ c) = [m] := by
        simp only [List.filter_cons, List.filter_nil]
        rw [if_pos]
        have : m ≠ c := by omega
        simpa using this
      rw [h2, ih hlt]
      simp
      omega

/-- The exact size of the neighbourhood of an interior cell. -/
theorem get_neighbors_interior_length {coords dims : List Nat}
    (hsmall : 3 ^ coords.length < 2 ^ 32) (hint : interior coords dims = true) :
    (get_neighbors coords dims).length = 3 ^ coords.length - 1 := by
  by_cases h0 : coords.length = 0
  · rw [show get_neighbors coords dims = [] from by simp [get_neighbors, h0], h0]
    simp
  · rw [get_neighbors_def h0]
    simp only [Nat.mod_eq_of_lt hsmall]
    rw [length_filterMap_eq _ _ (fun x _ => interior_applyOffsets_isSome hint x)]
    apply length_filter_range_ne
    have := Nat.one_le_pow coords.length 3 (by omega)
    omega

/-! ### Cell-vector write lemmas -/

theorem setKind_length : ∀ (cs : List Cell) (i : Nat) (k : CellKind),
    (setKind cs i k).length = cs.length := by
  intro cs
  induction cs with
  | nil => intro i k; rfl
  | cons c cs ih =>
    intro i k
    cases i with
    | zero => rfl
    | succ i => simp [setKind, ih]

theorem setState_length : ∀ (cs : List Cell) (i : Nat) (s : CellState),
    (setState cs i s).length = cs.length := by
  intro cs
  induction cs with
  | nil => intro i s; rfl
  | cons c cs ih =>
    intro i s
    cases i with
    | zero => rfl
    | succ i => simp [setState, ih]

theorem getD_setKind_ne : ∀ (cs : List Cell) (i j : Nat) (k : CellKind), j ≠ i →
    (setKind cs i k).getD j Cell.new = cs.getD j Cell.new := by
  intro cs
  induction cs with
  | nil => intro i j k _; rfl
  | cons c cs ih =>
    intro i j k hne
    cases i with
    | zero =>
      cases j with
      | zero => exact absurd rfl hne
      | succ j => rfl
    | succ i =>
      cases j with
      | zero => rfl
      | succ j => exact ih i j k (by omega)

theorem getD_setKind_self : ∀ (cs : List Cell) (i : Nat) (k : CellKind), i < cs.length →
    (setKind cs i k).getD i Cell.new = { cs.getD i Cell.new with kind := k } := by
  intro cs
  induction cs with
  | nil => intro i k h; simp at h
  | cons c cs ih =>
    intro i k h
    cases i with
    | zero => rfl
    | succ i => exact ih i k (by simpa using h)

theorem getD_setState_ne : ∀ (cs : List Cell) (i j : Nat) (s : CellState), j ≠ i →
    (setState cs i s).getD j Cell.new = cs.getD j Cell.new := by
  intro cs
  induction cs with
  | nil => intro i j s _; rfl
  | cons c cs ih =>
    intro i j s hne
    cases i with
    | zero =>
      cases j with
      | zero => exact absurd rfl hne
      | succ j => rfl
    | succ i =>
      cases j with
      | zero => rfl
      | succ j => exact ih i j s (by omega)

theorem getD_setState_self : ∀ (cs : List Cell) (i : Nat) (s : CellState), i < cs.length →
    (setState cs i s).getD i Cell.new = { cs.getD i Cell.new with state := s } := by
  intro cs
  induction cs with
  | nil => intro i s h; simp at h
  | cons c cs ih =>
    intro i s h
    cases i with
    | zero => rfl
    | succ i => exact ih i s (by simpa using h)

theorem setKind_oob : ∀ (cs : List Cell) (i : Nat) (k : CellKind), cs.length ≤ i →
    setKind cs i k = cs := by
  intro cs
  induction cs with
  | nil => intro i k _; rfl
  | cons c cs ih =>
    intro i k h
    cases i with
    | zero => simp at h
    | succ i => simp [setKind, ih i k (by simpa using h)]

theorem setState_oob : ∀ (cs : List Cell) (i : Nat) (s : CellState), cs.length ≤ i →
    setState cs i s = cs := by
  intro cs
  induction cs with
  | nil => intro i s _; rfl
  | cons c cs ih =>
    intro i s h
    cases i with
    | zero => simp at h
    | succ i => simp [setState, ih i s (by simpa using h)]

/-- Writing a content never moves any visibility. -/
theorem state_getD_setKind (cs : List Cell) (i j : Nat) (k : CellKind) :
    ((setKind cs i k).getD j Cell.new).state = (cs.getD j Cell.new).state := by
  by_cases hji : j = i
  · subst hji
    by_cases hlen : j < cs.length
    · rw [getD_setKind_self cs j k hlen]
    · rw [setKind_oob cs j k (by omega)]
  · rw [getD_setKind_ne cs i j k hji]

/-- Writing a visibility never moves any content. -/
theorem kind_getD_setState (cs : List Cell) (i j : Nat) (s : CellState) :
    ((setState cs i s).getD j Cell.new).kind = (cs.getD j Cell.new).kind := by
  by_cases hji : j = i
  · subst hji
    by_cases hlen : j < cs.length
    · rw [getD_setState_self cs j s hlen]
    · rw [setState_oob cs j s (by omega)]
  · rw [getD_setState_ne cs i j s hji]

theorem getD_replicate_cell : ∀ (n j : Nat), (List.replicate n Cell.new).getD j Cell.new = Cell.new := by
  intro n
  induction n with
  | zero => intro j; rfl
  | succ n ih =>
    intro j
    cases j with
    | zero => rfl
    | succ j => exact ih j

/-! ### Mine placement lemmas -/

theorem place_mines_length : ∀ (chosen : List Nat) (cells : List Cell),
    (place_mines cells chosen).length = cells.length := by
  intro chosen
  induction chosen with
  | nil => intro cells; rfl
  | cons x rest ih =>
    intro cells
    show (place_mines (setKind cells x CellKind.Mine) rest).length = cells.length
    rw [ih, setKind_length]

theorem place_mines_state : ∀ (chosen : List Nat) (cells : List Cell) (j : Nat),
    ((place_mines cells chosen).getD j Cell.new).state = (cells.getD j Cell.new).state := by
  intro chosen
  induction chosen with
  | nil => intro cells j; rfl
  | cons x rest ih =>
    intro cells j
    show ((place_mines (setKind cells x CellKind.Mine) rest).getD j Cell.new).state = _
    rw [ih, state_getD_setKind]

theorem place_mines_kind : ∀ (chosen : List Nat) (cells : List Cell) (j : Nat),
    j < cells.length →
    ((place_mines cells chosen).getD j Cell.new).kind =
      if j ∈ chosen then CellKind.Mine else (cells.getD j Cell.new).kind := by
  intro chosen
  induction chosen with
  | nil => intro cells j _; simp [place_mines]
  | cons x rest ih =>
    intro cells j hj
    show ((place_mines (setKind cells x CellKind.Mine) rest).getD j Cell.new).kind = _
    rw [ih _ j (by rw [setKind_length]; exact hj)]
    by_cases hrest : j ∈ rest
    · simp [hrest, List.mem_cons]
    · by_cases hx : j = x
      · subst hx
        rw [getD_setKind_self cells j _ hj]
        simp [hrest]
      · rw [getD_setKind_ne cells x j _ hx]
        simp [hrest, hx, List.mem_cons]

/-! ### The u8 counter accumulates the true count modulo 256 -/

theorem foldl_mod256_count {α : Type} (p : α → Prop) [DecidablePred p] :
    ∀ (l : List α) (acc : Nat), acc < 256 →
      l.foldl (fun a x => if p x then (a + 1) % 256 else a) acc
        = (acc + l.countP (fun x => decide (p x))) % 256 := by
  intro l
  induction l with
  | nil =>
    intro acc hacc
    simp [Nat.mod_eq_of_lt hacc]
  | cons x l ih =>
    intro acc hacc
    by_cases hp : p x
    · simp only [List.foldl_cons, if_pos hp]
      rw [ih _ (Nat.mod_lt _ (by omega))]
      rw [List.countP_cons]
      simp [hp, Nat.mod_add_mod]
      omega
    · simp only [List.foldl_cons, if_neg hp]
      rw [ih _ hacc, List.countP_cons]
      simp [hp]

/-- What the `u8` adjacent-mine counter stores: the spec-side count
reduced modulo `256`. -/
theorem mine_count_at_eq (cells : List Cell) (dims coords : List Nat) :
    mine_count_at cells dims coords = mine_neighbor_total cells dims coords % 256 := by
  unfold mine_count_at mine_neighbor_total
  rw [foldl_mod256_count
    (fun a => (cells.getD (to_index a dims) Cell.new).kind = CellKind.Mine) _ 0 (by omega)]
  simp

/-- The neighbour count only looks at which cells are mines. -/
theorem mine_neighbor_total_congr {cells1 cells2 : List Cell} (dims coords : List Nat)
    (h : ∀ j, ((cells1.getD j Cell.new).kind = CellKind.Mine ↔
      (cells2.getD j Cell.new).kind = CellKind.Mine)) :
    mine_neighbor_total cells1 dims coords = mine_neighbor_total cells2 dims coords := by
  unfold mine_neighbor_total
  exact List.countP_congr (fun a _ => by rw [decide_eq_decide.mpr (h (to_index a dims))])

theorem mine_count_at_congr {cells1 cells2 : List Cell} (dims coords : List Nat)
    (h : ∀ j, ((cells1.getD j Cell.new).kind = CellKind.Mine ↔
      (cells2.getD j Cell.new).kind = CellKind.Mine)) :
    mine_count_at cells1 dims coords = mine_count_at cells2 dims coords := by
  rw [mine_count_at_eq, mine_count_at_eq, mine_neighbor_total_congr dims coords h]

/-! ### One step of the count-precomputation loop -/

theorem calc_cell_length (dims : List Nat) (cells : List Cell) (i : Nat) :
    (calc_cell dims cells i).length = cells.length := by
  unfold calc_cell
  split
  · rfl
  · exact setKind_length _ _ _

theorem calc_cell_state (dims : List Nat) (cells : List Cell) (i j : Nat) :
    ((calc_cell dims cells i).getD j Cell.new).state = (cells.getD j Cell.new).state := by
  unfold calc_cell
  split
  · rfl
  · exact state_getD_setKind _ _ _ _

theorem calc_cell_kind_ne (dims : List Nat) (cells : List Cell) (i j : Nat) (h : j ≠ i) :
    ((calc_cell dims cells i).getD j Cell.new).kind = (cells.getD j Cell.new).kind := by
  unfold calc_cell
  split
  · rfl
  · rw [getD_setKind_ne _ _ _ _ h]

theorem calc_cell_mine_iff (dims : List Nat) (cells : List Cell) (i j : Nat) :
    (((calc_cell dims cells i).getD j Cell.new).kind = CellKind.Mine ↔
      (cells.getD j Cell.new).kind = CellKind.Mine) := by
  unfold calc_cell
  split
  · exact Iff.rfl
  · rename_i hnm
    by_cases hji : j = i
    · subst hji
      by_cases hlen : j < cells.length
      · rw [getD_setKind_self _ _ _ hlen]
        simp only []
        constructor
        · intro h; cases h
        · intro h; exact absurd h hnm
      · rw [setKind_oob _ _ _ (by omega)]
    · rw [getD_setKind_ne _ _ _ _ hji]

theorem calc_cell_of_mine {dims : List Nat} {cells : List Cell} {i : Nat}
    (hm : (cells.getD i Cell.new).kind = CellKind.Mine) :
    calc_cell dims cells i = cells := by
  unfold calc_cell
  rw [if_pos hm]

theorem calc_cell_kind_self {dims : List Nat} {cells : List Cell} {i : Nat}
    (hi : i < cells.length) (hnm : (cells.getD i Cell.new).kind ≠ CellKind.Mine) :
    ((calc_cell dims cells i).getD i Cell.new).kind =
      CellKind.Empty (mine_count_at cells dims (to_coords i dims)) := by
  unfold calc_cell
  rw [if_neg hnm, getD_setKind_self _ _ _ hi]

/-- Running the precomputation loop over any index list: visibility and
mine positions never move, and every visited non-mine index ends up
holding the neighbour count taken over the original mine layout. -/
theorem calc_foldl_spec (dims : List Nat) (cells0 : List Cell) :
    ∀ (L : List Nat) (cur : List Cell),
      cur.length = cells0.length →
      (∀ j, (cur.getD j Cell.new).state = (cells0.getD j Cell.new).state) →
      (∀ j, ((cur.getD j Cell.new).kind = CellKind.Mine ↔
        (cells0.getD j Cell.new).kind = CellKind.Mine)) →
      ((L.foldl (calc_cell dims) cur).length = cells0.length ∧
       (∀ j, ((L.foldl (calc_cell dims) cur).getD j Cell.new).state
          = (cells0.getD j Cell.new).state) ∧
       (∀ j, j < cells0.length →
         ((L.foldl (calc_cell dims) cur).getD j Cell.new).kind =
           if j ∈ L then
             (if (cells0.getD j Cell.new).kind = CellKind.Mine then CellKind.Mine
              else CellKind.Empty (mine_count_at cells0 dims (to_coords j dims)))
           else (cur.getD j Cell.new).kind)) := by
  intro L
  induction L with
  | nil =>
    intro cur hlen hstate hmine
    refine ⟨hlen, hstate, ?_⟩
    intro j hj
    simp [hlen, hstate j, hj]
  | cons i L ih =>
    intro cur hlen hstate hmine
    have hlen' : (calc_cell dims cur i).length = cells0.length := by
      rw [calc_cell_length]; exact hlen
    have hstate' : ∀ j, ((calc_cell dims cur i).getD j Cell.new).state
        = (cells0.getD j Cell.new).state := by
      intro j; rw [calc_cell_state]; exact hstate j
    have hmine' : ∀ j, (((calc_cell dims cur i).getD j Cell.new).kind = CellKind.Mine ↔
        (cells0.getD j Cell.new).kind = CellKind.Mine) := by
      intro j; exact (calc_cell_mine_iff dims cur i j).trans (hmine j)
    obtain ⟨rlen, rstate, rkind⟩ := ih (calc_cell dims cur i) hlen' hstate' hmine'
    refine ⟨rlen, rstate, ?_⟩
    intro j hj
    simp only [List.foldl_cons]
    rw [rkind j hj]
    by_cases hjL : j ∈ L
    · simp [hjL, List.mem_cons]
    · rw [if_neg hjL]
      by_cases hji : j = i
      · subst hji
        rw [if_pos (List.mem_cons_self j L)]
        by_cases hm : (cur.getD j Cell.new).kind = CellKind.Mine
        · rw [calc_cell_of_mine hm, if_pos ((hmine j).mp hm), hm]
        · rw [calc_cell_kind_self (by omega) hm, if_neg (fun hc => hm ((hmine j).mpr hc))]
          rw [mine_count_at_congr dims _ hmine]
      · rw [calc_cell_kind_ne dims cur i j hji]
        have : j ∉ i :: L := by
          simp [List.mem_cons, hji, hjL]
        rw [if_neg this]

/-! ### What `Board::new` builds -/

theorem Board_new_dimensions (dims chosen : List Nat) (m : Nat) :
    (Board.new dims chosen m).dimensions = dims := rfl

theorem Board_new_num_mines (dims chosen : List Nat) (m : Nat) :
    (Board.new dims chosen m).num_mines = m := rfl

theorem place_mines_replicate_length (dims chosen : List Nat) :
    (place_mines (List.replicate dims.prod Cell.new) chosen).length = dims.prod := by
  rw [place_mines_length, List.length_replicate]

theorem place_mines_replicate_kind (dims chosen : List Nat) (j : Nat) (hj : j < dims.prod) :
    (((place_mines (List.replicate dims.prod Cell.new) chosen).getD j Cell.new).kind
      = CellKind.Mine ↔ j ∈ chosen) := by
  rw [place_mines_kind chosen _ j (by simpa using hj), getD_replicate_cell]
  by_cases h : j ∈ chosen
  · simp [h]
  · simp [h, Cell.new]

theorem Board_new_length (dims chosen : List Nat) (m : Nat) :
    (Board.new dims chosen m).cells.length = dims.prod := by
  show ((List.range _).foldl (calc_cell dims) _).length = dims.prod
  obtain ⟨hl, _, _⟩ := calc_foldl_spec dims
    (place_mines (List.replicate dims.prod Cell.new) chosen)
    (List.range (place_mines (List.replicate dims.prod Cell.new) chosen).length)
    (place_mines (List.replicate dims.prod Cell.new) chosen)
    rfl (fun _ => rfl) (fun _ => Iff.rfl)
  rw [hl, place_mines_replicate_length]

theorem Board_new_state (dims chosen : List Nat) (m : Nat) (j : Nat) :
    ((Board.new dims chosen m).cells.getD j Cell.new).state = CellState.Hidden := by
  show (((List.range _).foldl (calc_cell dims) _).getD j Cell.new).state = _
  obtain ⟨_, hs, _⟩ := calc_foldl_spec dims
    (place_mines (List.replicate dims.prod Cell.new) chosen)
    (List.range (place_mines (List.replicate dims.prod Cell.new) chosen).length)
    (place_mines (List.replicate dims.prod Cell.new) chosen)
    rfl (fun _ => rfl) (fun _ => Iff.rfl)
  rw [hs j, place_mines_state, getD_replicate_cell]
  rfl

/-- The content layout `Board::new` produces: the chosen cells are mines,
every other in-range cell stores the `u8` neighbour count computed over
the placed mine layout. -/
theorem Board_new_kind (dims chosen : List Nat) (m : Nat) (j : Nat) (hj : j < dims.prod) :
    ((Board.new dims chosen m).cells.getD j Cell.new).kind =
      if j ∈ chosen then CellKind.Mine
      else CellKind.Empty
        (mine_count_at (place_mines (List.replicate dims.prod Cell.new) chosen)
          dims (to_coords j dims)) := by
  show (((List.range _).foldl (calc_cell dims) _).getD j Cell.new).kind = _
  obtain ⟨_, _, hk⟩ := calc_foldl_spec dims
    (place_mines (List.replicate dims.prod Cell.new) chosen)
    (List.range (place_mines (List.replicate dims.prod Cell.new) chosen).length)
    (place_mines (List.replicate dims.prod Cell.new) chosen)
    rfl (fun _ => rfl) (fun _ => Iff.rfl)
  rw [hk j (by rw [place_mines_replicate_length]; exact hj)]
  rw [if_pos (by rw [List.mem_range, place_mines_replicate_length]; exact hj)]
  by_cases hc : j ∈ chosen
  · rw [if_pos ((place_mines_replicate_kind dims chosen j hj).mpr hc), if_pos hc]
  · rw [if_neg (fun hmm => hc ((place_mines_replicate_kind dims chosen j hj).mp hmm)),
      if_neg hc]

/-- Mine positions of a fresh board, phrased through membership. -/
theorem Board_new_mine_iff (dims chosen : List Nat) (m : Nat) (j : Nat) (hj : j < dims.prod) :
    (((Board.new dims chosen m).cells.getD j Cell.new).kind = CellKind.Mine ↔ j ∈ chosen) := by
  rw [Board_new_kind dims chosen m j hj]
  by_cases hc : j ∈ chosen
  · simp [hc]
  · simp [hc]

/-! ### Counting mines -/

theorem countP_pointwise (p : Cell → Bool) :
    ∀ (l1 l2 : List Cell), l1.length = l2.length →
      (∀ j, j < l1.length → p (l1.getD j Cell.new) = p (l2.getD j Cell.new)) →
      l1.countP p = l2.countP p := by
  intro l1
  induction l1 with
  | nil =>
    intro l2 hlen _
    cases l2 with
    | nil => rfl
    | cons c l2 => simp at hlen
  | cons c l1 ih =>
    intro l2 hlen h
    cases l2 with
    | nil => simp at hlen
    | cons c2 l2 =>
      rw [List.countP_cons, List.countP_cons]
      have h0 := h 0 (by simp)
      rw [ih l2 (by simpa using hlen) (fun j hj => h (j + 1) (by simpa using hj))]
      simp only [List.getD_cons_zero] at h0
      rw [h0]

theorem countP_mine_setKind_mine :
    ∀ (cs : List Cell) (i : Nat), i < cs.length →
      (cs.getD i Cell.new).kind ≠ CellKind.Mine →
      (setKind cs i CellKind.Mine).countP (fun cell => decide (cell.kind = CellKind.Mine))
        = cs.countP (fun cell => decide (cell.kind = CellKind.Mine)) + 1 := by
  intro cs
  induction cs with
  | nil => intro i h _; simp at h
  | cons c cs ih =>
    intro i hi hnm
    cases i with
    | zero =>
      show ({ c with kind := CellKind.Mine } :: cs).countP _ = _
      rw [List.countP_cons, List.countP_cons]
      simp only [List.getD_cons_zero] at hnm
      simp [hnm]
    | succ i =>
      show (c :: setKind cs i CellKind.Mine).countP _ = _
      rw [List.countP_cons, List.countP_cons]
      rw [ih i (by simpa using hi) (by simpa using hnm)]
      omega

theorem countP_mine_replicate (n : Nat) :
    (List.replicate n Cell.new).countP (fun cell => decide (cell.kind = CellKind.Mine)) = 0 := by
  induction n with
  | zero => rfl
  | succ n ih =>
    rw [List.replicate_succ, List.countP_cons]
    simp [ih, Cell.new]

theorem place_mines_countP :
    ∀ (chosen : List Nat) (cells : List Cell), chosen.Nodup →
      (∀ j ∈ chosen, j < cells.length ∧ (cells.getD j Cell.new).kind ≠ CellKind.Mine) →
      (place_mines cells chosen).countP (fun cell => decide (cell.kind = CellKind.Mine))
        = cells.countP (fun cell => decide (cell.kind = CellKind.Mine)) + chosen.length := by
  intro chosen
  induction chosen with
  | nil => intro cells _ _; rfl
  | cons x rest ih =>
    intro cells hnd h
    obtain ⟨hx, hxm⟩ := h x (by simp)
    have hnd' : rest.Nodup := (List.nodup_cons.mp hnd).2
    have hxr : x ∉ rest := (List.nodup_cons.mp hnd).1
    show (place_mines (setKind cells x CellKind.Mine) rest).countP _ = _
    rw [ih _ hnd' ?_]
    · rw [countP_mine_setKind_mine cells x hx hxm]
      simp
      omega
    · intro j hj
      obtain ⟨hjl, hjm⟩ := h j (by simp [hj])
      refine ⟨by rw [setKind_length]; exact hjl, ?_⟩
      rw [getD_setKind_ne cells x j _ (fun hje => hxr (hje ▸ hj))]
      exact hjm

/-- A fresh board carries exactly one mine per chosen index. -/
theorem Board_new_mineCount (dims chosen : List Nat) (m : Nat)
    (hnd : chosen.Nodup) (hb : ∀ j ∈ chosen, j < dims.prod) :
    mineCount (Board.new dims chosen m) = chosen.length := by
  unfold mineCount
  have h1 : (Board.new dims chosen m).cells.countP
      (fun cell => decide (cell.kind = CellKind.Mine)) =
      (place_mines (List.replicate dims.prod Cell.new) chosen).countP
      (fun cell => decide (cell.kind = CellKind.Mine)) := by
    apply countP_pointwise
    · rw [Board_new_length, place_mines_replicate_length]
    · intro j hj
      rw [Board_new_length] at hj
      apply decide_eq_decide.mpr
      rw [Board_new_mine_iff dims chosen m j hj, place_mines_replicate_kind dims chosen j hj]
  rw [h1, place_mines_countP chosen _ hnd ?_]
  · rw [countP_mine_replicate]
    omega
  · intro j hj
    refine ⟨by simpa using hb j hj, ?_⟩
    rw [getD_replicate_cell]
    simp [Cell.new]

/-! ### Unfolding `revealFuel` case by case -/

theorem revealFuel_succ_guard {b : Board} {coords : List Nat} (fuel : Nat)
    (h : (b.cells.getD (to_index coords b.dimensions) Cell.new).state = CellState.Flagged ∨
      (b.cells.getD (to_index coords b.dimensions) Cell.new).state = CellState.Revealed) :
    revealFuel (fuel + 1) b coords = (b, false) := by
  simp only [revealFuel]
  rw [if_pos h]

theorem revealFuel_succ_mine {b : Board} {coords : List Nat} (fuel : Nat)
    (hg : ¬((b.cells.getD (to_index coords b.dimensions) Cell.new).state = CellState.Flagged ∨
      (b.cells.getD (to_index coords b.dimensions) Cell.new).state = CellState.Revealed))
    (hm : (b.cells.getD (to_index coords b.dimensions) Cell.new).kind = CellKind.Mine) :
    revealFuel (fuel + 1) b coords =
      ({ b with cells := setState b.cells (to_index coords b.dimensions) CellState.Revealed },
        true) := by
  simp only [revealFuel]
  rw [if_neg hg, hm]

theorem revealFuel_succ_zero {b : Board} {coords : List Nat} (fuel : Nat)
    (hg : ¬((b.cells.getD (to_index coords b.dimensions) Cell.new).state = CellState.Flagged ∨
      (b.cells.getD (to_index coords b.dimensions) Cell.new).state = CellState.Revealed))
    (hk : (b.cells.getD (to_index coords b.dimensions) Cell.new).kind = CellKind.Empty 0) :
    revealFuel (fuel + 1) b coords =
      ((get_neighbors coords b.dimensions).foldl
        (fun acc neighbor_coords => (revealFuel fuel acc neighbor_coords).1)
        { b with cells := setState b.cells (to_index coords b.dimensions) CellState.Revealed },
        false) := by
  simp only [revealFuel]
  rw [if_neg hg, hk]
  simp

theorem revealFuel_succ_pos {b : Board} {coords : List Nat} (fuel : Nat) {k : Nat}
    (hg : ¬((b.cells.getD (to_index coords b.dimensions) Cell.new).state = CellState.Flagged ∨
      (b.cells.getD (to_index coords b.dimensions) Cell.new).state = CellState.Revealed))
    (hk : (b.cells.getD (to_index coords b.dimensions) Cell.new).kind = CellKind.Empty k)
    (hkne : k ≠ 0) :
    revealFuel (fuel + 1) b coords =
      ({ b with cells := setState b.cells (to_index coords b.dimensions) CellState.Revealed },
        false) := by
  simp only [revealFuel]
  rw [if_neg hg, hk]
  simp [hkne]

/-! ### How a board evolves under reveal -/

theorem evolves_refl (b : Board) : Evolves b b :=
  ⟨rfl, rfl, rfl, fun _ => rfl, fun _ => Or.inl rfl⟩

theorem Evolves.comp {a b c : Board} (h1 : Evolves a b) (h2 : Evolves b c) : Evolves a c := by
  obtain ⟨hd1, hn1, hl1, hk1, hs1⟩ := h1
  obtain ⟨hd2, hn2, hl2, hk2, hs2⟩ := h2
  refine ⟨hd2.trans hd1, hn2.trans hn1, hl2.trans hl1,
    fun j => (hk2 j).trans (hk1 j), fun j => ?_⟩
  rcases hs2 j with h | h
  · rw [h]
    exact hs1 j
  · exact Or.inr h

theorem foldl_rel {α β : Type} (R : α → α → Prop) (f : α → β → α)
    (hrefl : ∀ a, R a a) (htrans : ∀ a b c, R a b → R b c → R a c) :
    ∀ (L : List β) (acc : α), (∀ a x, x ∈ L → R a (f a x)) → R acc (L.foldl f acc) := by
  intro L
  induction L with
  | nil => intro acc _; exact hrefl acc
  | cons x L ih =>
    intro acc hstep
    exact htrans _ _ _ (hstep acc x (by simp))
      (ih (f acc x) (fun a y hy => hstep a y (by simp [hy])))

theorem evolves_setState (b : Board) (i : Nat) :
    Evolves b { b with cells := setState b.cells i CellState.Revealed } := by
  refine ⟨rfl, rfl, setState_length _ _ _, fun j => kind_getD_setState _ _ _ _, fun j => ?_⟩
  by_cases hji : j = i
  · subst hji
    by_cases hlen : j < b.cells.length
    · rw [getD_setState_self _ _ _ hlen]
      exact Or.inr rfl
    · rw [setState_oob _ _ _ (by omega)]
      exact Or.inl rfl
  · rw [getD_setState_ne _ _ _ _ hji]
    exact Or.inl rfl

/-- Revealing only flips visibilities to `Revealed`: shape, mine count,
cell count and every content are exactly preserved. -/
theorem revealFuel_evolves : ∀ (fuel : Nat) (b : Board) (coords : List Nat),
    Evolves b (revealFuel fuel b coords).1 := by
  intro fuel
  induction fuel with
  | zero => intro b coords; exact evolves_refl b
  | succ fuel ih =>
    intro b coords
    by_cases hg : (b.cells.getD (to_index coords b.dimensions) Cell.new).state =
        CellState.Flagged ∨
        (b.cells.getD (to_index coords b.dimensions) Cell.new).state = CellState.Revealed
    · rw [revealFuel_succ_guard fuel hg]
      exact evolves_refl b
    · cases hk : (b.cells.getD (to_index coords b.dimensions) Cell.new).kind with
      | Mine =>
        rw [revealFuel_succ_mine fuel hg hk]
        exact evolves_setState b _
      | Empty k =>
        by_cases hk0 : k = 0
        · subst hk0
          rw [revealFuel_succ_zero fuel hg hk]
          show Evolves b ((get_neighbors coords b.dimensions).foldl
            (fun acc neighbor_coords => (revealFuel fuel acc neighbor_coords).1)
            { b with cells :=
              setState b.cells (to_index coords b.dimensions) CellState.Revealed })
          exact Evolves.comp
            (evolves_setState b (to_index coords b.dimensions))
            (foldl_rel Evolves _ evolves_refl (fun _ _ _ => Evolves.comp) _ _
              (fun a x _ => ih a x))
        · rw [revealFuel_succ_pos fuel hg hk hk0]
          exact evolves_setState b _

/-! ### The unrevealed-cell measure -/

theorem countP_le_pointwise (p : Cell → Bool) :
    ∀ (l1 l2 : List Cell), l1.length = l2.length →
      (∀ j, j < l1.length → p (l1.getD j Cell.new) = true → p (l2.getD j Cell.new) = true) →
      l1.countP p ≤ l2.countP p := by
  intro l1
  induction l1 with
  | nil => intro l2 _ _; simp
  | cons c l1 ih =>
    intro l2 hlen h
    cases l2 with
    | nil => simp at hlen
    | cons c2 l2 =>
      rw [List.countP_cons, List.countP_cons]
      have hrec := ih l2 (by simpa using hlen) (fun j hj => h (j + 1) (by simpa using hj))
      have h0 := h 0 (by simp)
      simp only [List.getD_cons_zero] at h0
      by_cases hc : p c = true
      · simp [hc, h0 hc]
        omega
      · simp only [Bool.not_eq_true] at hc
        simp [hc]
        omega

theorem evolves_unrev_le {b b' : Board} (h : Evolves b b') :
    unrevealedCount b' ≤ unrevealedCount b := by
  obtain ⟨_, _, hl, _, hs⟩ := h
  unfold unrevealedCount
  apply countP_le_pointwise _ _ _ hl
  intro j _ hj
  simp only [decide_eq_true_eq] at hj ⊢
  intro hrev
  rcases hs j with h | h
  · rw [h] at hj
    exact hj hrev
  · exact hj h

theorem countP_setState_unrev :
    ∀ (cs : List Cell) (i : Nat), i < cs.length →
      (cs.getD i Cell.new).state ≠ CellState.Revealed →
      (setState cs i CellState.Revealed).countP
          (fun cell => decide (cell.state ≠ CellState.Revealed)) + 1
        = cs.countP (fun cell => decide (cell.state ≠ CellState.Revealed)) := by
  intro cs
  induction cs with
  | nil => intro i h _; simp at h
  | cons c cs ih =>
    intro i hi hnr
    cases i with
    | zero =>
      show ({ c with state := CellState.Revealed } :: cs).countP _ + 1 = _
      rw [List.countP_cons, List.countP_cons]
      simp only [List.getD_cons_zero] at hnr
      simp [hnr]
    | succ i =>
      show (c :: setState cs i CellState.Revealed).countP _ + 1 = _
      rw [List.countP_cons, List.countP_cons]
      rw [← ih i (by simpa using hi) (by simpa using hnr)]
      omega

theorem unrevealedCount_le_length (b : Board) : unrevealedCount b ≤ b.cells.length :=
  List.countP_le_length _

/-- The recursion budget is irrelevant once it exceeds the number of
unrevealed cells: every recursive call happens only after one more cell
has been marked `Revealed`, so the recursion depth is bounded and the
source's unbounded recursion terminates with this very answer. -/
theorem revealFuel_fuel_irrel : ∀ (fuel1 fuel2 : Nat) (b : Board) (coords : List Nat),
    b.cells.length = b.dimensions.prod →
    validCoords coords b.dimensions = true →
    unrevealedCount b < fuel1 → unrevealedCount b < fuel2 →
    revealFuel fuel1 b coords = revealFuel fuel2 b coords := by
  intro fuel1
  induction fuel1 with
  | zero =>
    intro fuel2 b coords _ _ h1 _
    omega
  | succ f1 ih =>
    intro fuel2 b coords hwf hv h1 h2
    cases fuel2 with
    | zero => omega
    | succ f2 =>
      by_cases hg : (b.cells.getD (to_index coords b.dimensions) Cell.new).state =
          CellState.Flagged ∨
          (b.cells.getD (to_index coords b.dimensions) Cell.new).state = CellState.Revealed
      · rw [revealFuel_succ_guard f1 hg, revealFuel_succ_guard f2 hg]
      · cases hk : (b.cells.getD (to_index coords b.dimensions) Cell.new).kind with
        | Mine => rw [revealFuel_succ_mine f1 hg hk, revealFuel_succ_mine f2 hg hk]
        | Empty k =>
          by_cases hk0 : k = 0
          · subst hk0
            rw [revealFuel_succ_zero f1 hg hk, revealFuel_succ_zero f2 hg hk]
            have hidx : to_index coords b.dimensions < b.cells.length := by
              rw [hwf]
              exact to_index_lt_prod hv
            have hnr : (b.cells.getD (to_index coords b.dimensions) Cell.new).state ≠
                CellState.Revealed := fun h => hg (Or.inr h)
            have hm1 : unrevealedCount
                { b with cells := (setState b.cells (to_index coords b.dimensions)
                    CellState.Revealed) } + 1 = unrevealedCount b :=
              countP_setState_unrev b.cells _ hidx hnr
            have hlen : coords.length = b.dimensions.length := validCoords_length hv
            have hfold : ∀ (L : List (List Nat)),
                (∀ a ∈ L, validCoords a b.dimensions = true) →
                ∀ (acc : Board), acc.dimensions = b.dimensions →
                  acc.cells.length = b.cells.length →
                  unrevealedCount acc + 1 ≤ unrevealedCount b →
                  L.foldl (fun acc neighbor_coords => (revealFuel f1 acc neighbor_coords).1) acc
                    = L.foldl (fun acc neighbor_coords =>
                        (revealFuel f2 acc neighbor_coords).1) acc := by
              intro L
              induction L with
              | nil => intro _ acc _ _ _; rfl
              | cons a L ihL =>
                intro hval acc hdims hlen2 hmeas
                have hva : validCoords a acc.dimensions = true := by
                  rw [hdims]
                  exact hval a (by simp)
                have hwfa : acc.cells.length = acc.dimensions.prod := by
                  rw [hdims, hlen2, hwf]
                have hstep : revealFuel f1 acc a = revealFuel f2 acc a := by
                  apply ih f2 acc a hwfa hva
                  · omega
                  · omega
                simp only [List.foldl_cons]
                rw [hstep]
                obtain ⟨hd, _, hl, _, _⟩ := revealFuel_evolves f2 acc a
                exact ihL (fun x hx => hval x (by simp [hx])) _ (hd.trans hdims)
                  (hl.trans hlen2)
                  (le_trans (Nat.add_le_add_right
                    (evolves_unrev_le (revealFuel_evolves f2 acc a)) 1) hmeas)
            have hfe := hfold (get_neighbors coords b.dimensions)
              (fun a ha => adjacentTo_validCoords (get_neighbors_sound hlen ha))
              { b with cells := (setState b.cells (to_index coords b.dimensions)
                  CellState.Revealed) }
              rfl (setState_length _ _ _) (by omega)
            rw [hfe]
          · rw [revealFuel_succ_pos f1 hg hk hk0, revealFuel_succ_pos f2 hg hk hk0]

/-- `Board::reveal` as defined equals the recursion at any sufficient
budget; in particular the budget in the definition is enough. -/
theorem revealFuel_eq_reveal (fuel : Nat) (b : Board) (coords : List Nat)
    (hwf : b.cells.length = b.dimensions.prod)
    (hv : validCoords coords b.dimensions = true)
    (hfuel : unrevealedCount b < fuel) :
    revealFuel fuel b coords = b.reveal coords := by
  apply revealFuel_fuel_irrel fuel (b.cells.length + 1) b coords hwf hv hfuel
  have := unrevealedCount_le_length b
  omega

/-! ### Reveal reports a mine only on a mine -/

theorem revealFuel_hit {fuel : Nat} {b : Board} {coords : List Nat}
    (h : (revealFuel fuel b coords).2 = true) :
    (b.cells.getD (to_index coords b.dimensions) Cell.new).kind = CellKind.Mine := by
  cases fuel with
  | zero => cases h
  | succ fuel =>
    by_cases hg : (b.cells.getD (to_index coords b.dimensions) Cell.new).state =
        CellState.Flagged ∨
        (b.cells.getD (to_index coords b.dimensions) Cell.new).state = CellState.Revealed
    · rw [revealFuel_succ_guard fuel hg] at h
      cases h
    · cases hk : (b.cells.getD (to_index coords b.dimensions) Cell.new).kind with
      | Mine => rfl
      | Empty k =>
        by_cases hk0 : k = 0
        · subst hk0
          rw [revealFuel_succ_zero fuel hg hk] at h
          cases h
        · rw [revealFuel_succ_pos fuel hg hk hk0] at h
          cases h

/-! ### Flood-fill safety: zero-honest boards never reveal a mine -/

theorem zeroHonest_congr {b b' : Board}
    (hd : b'.dimensions = b.dimensions) (hl : b'.cells.length = b.cells.length)
    (hk : ∀ j, (b'.cells.getD j Cell.new).kind = (b.cells.getD j Cell.new).kind)
    (h : zeroHonest b) : zeroHonest b' := by
  intro i hi hzero a ha
  rw [hd] at ha
  rw [hk (to_index a b'.dimensions), hd]
  exact h i (by rw [← hl]; exact hi) (by rw [← hk i]; exact hzero) a ha

theorem noMineRevealed_setState_of_not_mine {b : Board} {i : Nat}
    (h : noMineRevealed b)
    (hnm : (b.cells.getD i Cell.new).kind ≠ CellKind.Mine) :
    noMineRevealed { b with cells := setState b.cells i CellState.Revealed } := by
  intro j hkj
  rw [kind_getD_setState] at hkj
  by_cases hji : j = i
  · subst hji
    exact absurd hkj hnm
  · rw [getD_setState_ne _ _ _ _ hji]
    exact h j hkj

/-- The heart of claim C10: revealing a non-mine cell of a zero-honest
board keeps every mine unrevealed, cascades included, because a stored
zero really guarantees a mine-free neighbourhood. -/
theorem revealFuel_safe : ∀ (fuel : Nat) (b : Board) (coords : List Nat),
    zeroHonest b →
    b.cells.length = b.dimensions.prod →
    validCoords coords b.dimensions = true →
    noMineRevealed b →
    (b.cells.getD (to_index coords b.dimensions) Cell.new).kind ≠ CellKind.Mine →
    noMineRevealed (revealFuel fuel b coords).1 := by
  intro fuel
  induction fuel with
  | zero => intro b coords _ _ _ hs _; exact hs
  | succ fuel ih =>
    intro b coords hz hwf hv hs hnm
    by_cases hg : (b.cells.getD (to_index coords b.dimensions) Cell.new).state =
        CellState.Flagged ∨
        (b.cells.getD (to_index coords b.dimensions) Cell.new).state = CellState.Revealed
    · rw [revealFuel_succ_guard fuel hg]
      exact hs
    · cases hk : (b.cells.getD (to_index coords b.dimensions) Cell.new).kind with
      | Mine => exact absurd hk hnm
      | Empty k =>
        have hb1 : noMineRevealed
            { b with cells := (setState b.cells (to_index coords b.dimensions)
                CellState.Revealed) } :=
          noMineRevealed_setState_of_not_mine hs hnm
        by_cases hk0 : k = 0
        · subst hk0
          rw [revealFuel_succ_zero fuel hg hk]
          have hlen : coords.length = b.dimensions.length := validCoords_length hv
          have hidx : to_index coords b.dimensions < b.cells.length := by
            rw [hwf]
            exact to_index_lt_prod hv
          have hround : to_coords (to_index coords b.dimensions) b.dimensions = coords :=
            to_coords_to_index hv
          have hnoadj : ∀ a ∈ get_neighbors coords b.dimensions,
              (b.cells.getD (to_index a b.dimensions) Cell.new).kind ≠ CellKind.Mine := by
            intro a ha
            have := hz (to_index coords b.dimensions) hidx hk a (by rw [hround]; exact ha)
            exact this
          have hfold : ∀ (L : List (List Nat)),
              (∀ a ∈ L, validCoords a b.dimensions = true) →
              (∀ a ∈ L, (b.cells.getD (to_index a b.dimensions) Cell.new).kind ≠
                CellKind.Mine) →
              ∀ (acc : Board), acc.dimensions = b.dimensions →
                acc.cells.length = b.cells.length →
                (∀ j, (acc.cells.getD j Cell.new).kind = (b.cells.getD j Cell.new).kind) →
                noMineRevealed acc →
                noMineRevealed
                  (L.foldl (fun acc neighbor_coords =>
                    (revealFuel fuel acc neighbor_coords).1) acc) := by
            intro L
            induction L with
            | nil => intro _ _ acc _ _ _ hsafe; exact hsafe
            | cons a L ihL =>
              intro hval hmines acc hdims hlen2 hkinds hsafe
              simp only [List.foldl_cons]
              obtain ⟨hd, _, hl, hkk, _⟩ := revealFuel_evolves fuel acc a
              apply ihL (fun x hx => hval x (by simp [hx]))
                (fun x hx => hmines x (by simp [hx]))
              · rw [hd, hdims]
              · rw [hl, hlen2]
              · intro j
                rw [hkk j, hkinds j]
              · apply ih acc a
                · exact zeroHonest_congr hdims hlen2 hkinds hz
                · rw [hdims, hlen2, hwf]
                · rw [hdims]
                  exact hval a (by simp)
                · exact hsafe
                · rw [hdims, hkinds (to_index a b.dimensions)]
                  exact hmines a (by simp)
          exact hfold (get_neighbors coords b.dimensions)
            (fun a ha => adjacentTo_validCoords (get_neighbors_sound hlen ha))
            hnoadj
            { b with cells := (setState b.cells (to_index coords b.dimensions)
                CellState.Revealed) }
            rfl (setState_length _ _ _)
            (fun j => kind_getD_setState _ _ _ _) hb1
        · rw [revealFuel_succ_pos fuel hg hk hk0]
          exact hb1

/-- `Board::reveal` on a zero-honest board: when no mine hit is reported,
no mine has been revealed. -/
theorem Board_reveal_safe {b : Board} {coords : List Nat}
    (hz : zeroHonest b) (hwf : b.cells.length = b.dimensions.prod)
    (hv : validCoords coords b.dimensions = true) (hs : noMineRevealed b)
    (hfalse : (b.reveal coords).2 = false) :
    noMineRevealed (b.reveal coords).1 := by
  by_cases hnm : (b.cells.getD (to_index coords b.dimensions) Cell.new).kind = CellKind.Mine
  · by_cases hg : (b.cells.getD (to_index coords b.dimensions) Cell.new).state =
        CellState.Flagged ∨
        (b.cells.getD (to_index coords b.dimensions) Cell.new).state = CellState.Revealed
    · show noMineRevealed (revealFuel (b.cells.length + 1) b coords).1
      rw [revealFuel_succ_guard _ hg]
      exact hs
    · exfalso
      have : (b.reveal coords).2 = true := by
        show (revealFuel (b.cells.length + 1) b coords).2 = true
        rw [revealFuel_succ_mine _ hg hnm]
      rw [this] at hfalse
      cases hfalse
  · exact revealFuel_safe _ b coords hz hwf hv hs hnm

/-! ### Toggle-flag case analysis -/

theorem toggle_flag_oob {b : Board} {c : List Nat}
    (h : ¬ to_index c b.dimensions < b.cells.length) : b.toggle_flag c = b := by
  unfold Board.toggle_flag
  rw [if_neg h]

theorem toggle_flag_hidden {b : Board} {c : List Nat}
    (hlen : to_index c b.dimensions < b.cells.length)
    (hst : (b.cells.getD (to_index c b.dimensions) Cell.new).state = CellState.Hidden) :
    b.toggle_flag c =
      { b with cells := setState b.cells (to_index c b.dimensions) CellState.Flagged } := by
  unfold Board.toggle_flag
  rw [if_pos hlen, hst]

theorem toggle_flag_flagged {b : Board} {c : List Nat}
    (hlen : to_index c b.dimensions < b.cells.length)
    (hst : (b.cells.getD (to_index c b.dimensions) Cell.new).state = CellState.Flagged) :
    b.toggle_flag c =
      { b with cells := setState b.cells (to_index c b.dimensions) CellState.Hidden } := by
  unfold Board.toggle_flag
  rw [if_pos hlen, hst]

theorem toggle_flag_revealed {b : Board} {c : List Nat}
    (hlen : to_index c b.dimensions < b.cells.length)
    (hst : (b.cells.getD (to_index c b.dimensions) Cell.new).state = CellState.Revealed) :
    b.toggle_flag c = b := by
  unfold Board.toggle_flag
  rw [if_pos hlen, hst]

theorem toggle_flag_dims (b : Board) (c : List Nat) :
    (b.toggle_flag c).dimensions = b.dimensions := by
  by_cases hlen : to_index c b.dimensions < b.cells.length
  · cases hst : (b.cells.getD (to_index c b.dimensions) Cell.new).state with
    | Hidden => rw [toggle_flag_hidden hlen hst]
    | Flagged => rw [toggle_flag_flagged hlen hst]
    | Revealed => rw [toggle_flag_revealed hlen hst]
  · rw [toggle_flag_oob hlen]

theorem toggle_flag_length (b : Board) (c : List Nat) :
    (b.toggle_flag c).cells.length = b.cells.length := by
  by_cases hlen : to_index c b.dimensions < b.cells.length
  · cases hst : (b.cells.getD (to_index c b.dimensions) Cell.new).state with
    | Hidden => rw [toggle_flag_hidden hlen hst]; exact setState_length _ _ _
    | Flagged => rw [toggle_flag_flagged hlen hst]; exact setState_length _ _ _
    | Revealed => rw [toggle_flag_revealed hlen hst]
  · rw [toggle_flag_oob hlen]

theorem toggle_flag_kind (b : Board) (c : List Nat) (j : Nat) :
    ((b.toggle_flag c).cells.getD j Cell.new).kind = (b.cells.getD j Cell.new).kind := by
  by_cases hlen : to_index c b.dimensions < b.cells.length
  · cases hst : (b.cells.getD (to_index c b.dimensions) Cell.new).state with
    | Hidden => rw [toggle_flag_hidden hlen hst]; exact kind_getD_setState _ _ _ _
    | Flagged => rw [toggle_flag_flagged hlen hst]; exact kind_getD_setState _ _ _ _
    | Revealed => rw [toggle_flag_revealed hlen hst]
  · rw [toggle_flag_oob hlen]

theorem toggle_flag_noMineRevealed {b : Board} {c : List Nat} (h : noMineRevealed b) :
    noMineRevealed (b.toggle_flag c) := by
  by_cases hlen : to_index c b.dimensions < b.cells.length
  · cases hst : (b.cells.getD (to_index c b.dimensions) Cell.new).state with
    | Hidden =>
      rw [toggle_flag_hidden hlen hst]
      intro j hkj
      rw [kind_getD_setState] at hkj
      by_cases hji : j = to_index c b.dimensions
      · subst hji
        rw [getD_setState_self _ _ _ hlen]
        intro hcon
        cases hcon
      · rw [getD_setState_ne _ _ _ _ hji]
        exact h j hkj
    | Flagged =>
      rw [toggle_flag_flagged hlen hst]
      intro j hkj
      rw [kind_getD_setState] at hkj
      by_cases hji : j = to_index c b.dimensions
      · subst hji
        rw [getD_setState_self _ _ _ hlen]
        intro hcon
        cases hcon
      · rw [getD_setState_ne _ _ _ _ hji]
        exact h j hkj
    | Revealed =>
      rw [toggle_flag_revealed hlen hst]
      exact h
  · rw [toggle_flag_oob hlen]
    exact h

/-! ### Game case analysis -/

theorem Board_reveal_evolves (b : Board) (c : List Nat) : Evolves b (b.reveal c).1 :=
  revealFuel_evolves _ b c

theorem Game_reveal_not_inprogress {g : Game} {c : List Nat}
    (h : ¬ g.state = GameState.InProgress) : g.reveal c = g := by
  unfold Game.reveal
  rw [if_neg h]

theorem Game_toggle_not_inprogress {g : Game} {c : List Nat}
    (h : ¬ g.state = GameState.InProgress) : g.toggle_flag c = g := by
  unfold Game.toggle_flag
  rw [if_neg h]

theorem Game_toggle_inprogress {g : Game} {c : List Nat}
    (h : g.state = GameState.InProgress) :
    g.toggle_flag c = { g with board := g.board.toggle_flag c } := by
  unfold Game.toggle_flag
  rw [if_pos h]

theorem Game_reveal_inprogress {g : Game} {c : List Nat}
    (h : g.state = GameState.InProgress) :
    g.reveal c =
      (if (g.board.reveal c).2 then
        { board := (g.board.reveal c).1, state := GameState.Lost }
      else if ({ g with board := (g.board.reveal c).1 } : Game).is_won then
        { board := (g.board.reveal c).1, state := GameState.Won }
      else { g with board := (g.board.reveal c).1 }) := by
  unfold Game.reveal
  rw [if_pos h]

/-! ### The reachable-state invariant behind claim C10 -/

theorem reachable_invariant {g : Game} (hr : ReachableValid g) :
    g.board.cells.length = g.board.dimensions.prod ∧
      (zeroHonest g.board → g.state ≠ GameState.Lost → noMineRevealed g.board) := by
  induction hr with
  | new dims chosen m hnd hb hlen =>
    refine ⟨Board_new_length dims chosen m, fun _ _ j hkj => ?_⟩
    show ((Board.new dims chosen m).cells.getD j Cell.new).state ≠ CellState.Revealed
    rw [Board_new_state]
    intro hcon
    cases hcon
  | reveal g c hg hv ih =>
    obtain ⟨ihwf, ihsafe⟩ := ih
    by_cases hst : g.state = GameState.InProgress
    · rw [Game_reveal_inprogress hst]
      obtain ⟨hd, _, hl, hkk, _⟩ := Board_reveal_evolves g.board c
      have hwf' : (g.board.reveal c).1.cells.length = (g.board.reveal c).1.dimensions.prod := by
        rw [hl, hd]
        exact ihwf
      by_cases hhit : (g.board.reveal c).2 = true
      · rw [if_pos hhit]
        exact ⟨hwf', fun _ hnl => absurd rfl hnl⟩
      · rw [if_neg hhit]
        have hfalse : (g.board.reveal c).2 = false := by
          simpa using hhit
        have hsafe' : zeroHonest (g.board.reveal c).1 → noMineRevealed (g.board.reveal c).1 := by
          intro hz'
          have hz : zeroHonest g.board := zeroHonest_congr hd.symm hl.symm
            (fun j => (hkk j).symm) hz'
          have hs : noMineRevealed g.board := ihsafe hz (by rw [hst]; intro hcon; cases hcon)
          exact Board_reveal_safe hz ihwf hv hs hfalse
        by_cases hwon : ({ g with board := (g.board.reveal c).1 } : Game).is_won = true
        · rw [if_pos hwon]
          exact ⟨hwf', fun hz' _ => hsafe' hz'⟩
        · rw [if_neg hwon]
          exact ⟨hwf', fun hz' _ => hsafe' hz'⟩
    · rw [Game_reveal_not_inprogress hst]
      exact ⟨ihwf, ihsafe⟩
  | flag g c hg hv ih =>
    obtain ⟨ihwf, ihsafe⟩ := ih
    by_cases hst : g.state = GameState.InProgress
    · rw [Game_toggle_inprogress hst]
      refine ⟨?_, ?_⟩
      · rw [toggle_flag_length, toggle_flag_dims]
        exact ihwf
      · intro hz' hnl
        have hz : zeroHonest g.board := zeroHonest_congr (toggle_flag_dims g.board c).symm
          (toggle_flag_length g.board c).symm (fun j => (toggle_flag_kind g.board c j).symm) hz'
        exact toggle_flag_noMineRevealed (ihsafe hz hnl)
    · rw [Game_toggle_not_inprogress hst]
      exact ⟨ihwf, ihsafe⟩

/-! ### Fresh boards and zero-honesty -/

theorem Board_new_mine_iff_placed (dims chosen : List Nat) (m : Nat) (j : Nat) :
    (((Board.new dims chosen m).cells.getD j Cell.new).kind = CellKind.Mine ↔
      ((place_mines (List.replicate dims.prod Cell.new) chosen).getD j Cell.new).kind
        = CellKind.Mine) := by
  by_cases hj : j < dims.prod
  · rw [Board_new_mine_iff dims chosen m j hj, place_mines_replicate_kind dims chosen j hj]
  · rw [List.getD_eq_default _ _ (by rw [Board_new_length]; omega),
      List.getD_eq_default _ _ (by rw [place_mines_replicate_length]; omega)]

/-- The stored count of a fresh board, phrased over the board's own final
cells: the `u8` holds the true neighbour-mine count reduced modulo 256. -/
theorem Board_new_kind_total (dims chosen : List Nat) (m : Nat) (j : Nat)
    (hj : j < dims.prod) :
    ((Board.new dims chosen m).cells.getD j Cell.new).kind =
      if j ∈ chosen then CellKind.Mine
      else CellKind.Empty
        (mine_neighbor_total (Board.new dims chosen m).cells dims (to_coords j dims) % 256) := by
  rw [Board_new_kind dims chosen m j hj]
  by_cases hc : j ∈ chosen
  · rw [if_pos hc, if_pos hc]
  · rw [if_neg hc, if_neg hc, mine_count_at_eq,
      mine_neighbor_total_congr dims (to_coords j dims)
        (fun i => (Board_new_mine_iff_placed dims chosen m i).symm)]

/-- A fresh board is zero-honest whenever no true neighbour count reaches
256 (so the `u8` never wraps); in particular for dimensionality up to 5. -/
theorem Board_new_zeroHonest (dims chosen : List Nat) (m : Nat)
    (h : ∀ j, j < dims.prod →
      mine_neighbor_total (place_mines (List.replicate dims.prod Cell.new) chosen) dims
        (to_coords j dims) < 256) :
    zeroHonest (Board.new dims chosen m) := by
  intro i hi hzero a ha
  rw [Board_new_length] at hi
  have hdims : (Board.new dims chosen m).dimensions = dims := rfl
  rw [hdims] at ha ⊢
  rw [Board_new_kind dims chosen m i hi] at hzero
  by_cases hc : i ∈ chosen
  · rw [if_pos hc] at hzero
    cases hzero
  · rw [if_neg hc] at hzero
    injection hzero with hcnt
    rw [mine_count_at_eq] at hcnt
    have h0 : mine_neighbor_total (place_mines (List.replicate dims.prod Cell.new) chosen)
        dims (to_coords i dims) = 0 := by
      have := h i hi
      omega
    have hall := List.countP_eq_zero.mp h0
    have hnp := hall a ha
    simp only [decide_eq_true_eq] at hnp
    intro hcon
    exact hnp ((Board_new_mine_iff_placed dims chosen m (to_index a dims)).mp hcon)

/-- A neighbourhood has fewer than `3 ^ N` members, so for dimensionality
at most 5 no neighbour count can reach 256. -/
theorem mine_neighbor_total_lt (cells : List Cell) (dims coords : List Nat) :
    mine_neighbor_total cells dims coords ≤ 3 ^ coords.length % 2 ^ 32 := by
  unfold mine_neighbor_total
  calc (get_neighbors coords dims).countP _ ≤ (get_neighbors coords dims).length :=
        List.countP_le_length _
    _ ≤ 3 ^ coords.length % 2 ^ 32 := by
        by_cases h0 : coords.length = 0
        · rw [show get_neighbors coords dims = [] from by simp [get_neighbors, h0]]
          simp
        · rw [get_neighbors_def h0]
          calc (((List.range _).filter _).filterMap _).length
              ≤ ((List.range (3 ^ coords.length % 2 ^ 32)).filter
                  (fun i => i ≠ (3 ^ coords.length % 2 ^ 32 - 1) / 2)).length :=
                List.length_filterMap_le _ _
            _ ≤ (List.range (3 ^ coords.length % 2 ^ 32)).length := List.length_filter_le _ _
            _ = 3 ^ coords.length % 2 ^ 32 := List.length_range _

/-! ### Flood fill reveals every unflagged neighbour -/

/-- One call with positive budget reveals its target whenever the target
is in range and not flagged. -/
theorem revealFuel_target_revealed (fuel : Nat) (b : Board) (coords : List Nat)
    (hwf : b.cells.length = b.dimensions.prod)
    (hv : validCoords coords b.dimensions = true)
    (hnf : (b.cells.getD (to_index coords b.dimensions) Cell.new).state ≠ CellState.Flagged) :
    (((revealFuel (fuel + 1) b coords).1).cells.getD (to_index coords b.dimensions)
      Cell.new).state = CellState.Revealed := by
  have hidx : to_index coords b.dimensions < b.cells.length := by
    rw [hwf]
    exact to_index_lt_prod hv
  by_cases hg : (b.cells.getD (to_index coords b.dimensions) Cell.new).state =
      CellState.Flagged ∨
      (b.cells.getD (to_index coords b.dimensions) Cell.new).state = CellState.Revealed
  · rw [revealFuel_succ_guard fuel hg]
    rcases hg with h | h
    · exact absurd h hnf
    · exact h
  · have hb1 : ((setState b.cells (to_index coords b.dimensions)
        CellState.Revealed).getD (to_index coords b.dimensions) Cell.new).state
        = CellState.Revealed := by
      rw [getD_setState_self _ _ _ hidx]
    cases hk : (b.cells.getD (to_index coords b.dimensions) Cell.new).kind with
    | Mine =>
      rw [revealFuel_succ_mine fuel hg hk]
      exact hb1
    | Empty k =>
      by_cases hk0 : k = 0
      · subst hk0
        rw [revealFuel_succ_zero fuel hg hk]
        have hev := foldl_rel Evolves
          (fun acc neighbor_coords => (revealFuel fuel acc neighbor_coords).1)
          evolves_refl (fun _ _ _ => Evolves.comp) (get_neighbors coords b.dimensions)
          { b with cells := (setState b.cells (to_index coords b.dimensions)
              CellState.Revealed) }
          (fun a x _ => revealFuel_evolves fuel a x)
        obtain ⟨_, _, _, _, hstates⟩ := hev
        rcases hstates (to_index coords b.dimensions) with h | h
        · rw [h]
          exact hb1
        · exact h
      · rw [revealFuel_succ_pos fuel hg hk hk0]
        exact hb1

/-- Within a fold of reveals, every member of the list whose cell starts
out unflagged ends up revealed. -/
theorem foldl_reveal_members (fuel : Nat) (dims : List Nat) :
    ∀ (L : List (List Nat)) (acc : Board), acc.dimensions = dims →
      acc.cells.length = dims.prod →
      (∀ a ∈ L, validCoords a dims = true) →
      ∀ a ∈ L,
        (acc.cells.getD (to_index a dims) Cell.new).state ≠ CellState.Flagged →
        (((L.foldl (fun acc neighbor_coords =>
            (revealFuel (fuel + 1) acc neighbor_coords).1) acc).cells.getD
          (to_index a dims) Cell.new).state = CellState.Revealed) := by
  intro L
  induction L with
  | nil =>
    intro acc _ _ _ a ha
    cases ha
  | cons x L ihL =>
    intro acc hdims hlen hval a ha hnf
    simp only [List.foldl_cons]
    obtain ⟨hd, _, hl, _, hstates⟩ := revealFuel_evolves (fuel + 1) acc x
    rcases List.mem_cons.mp ha with hax | haL
    · subst hax
      have hrev : (((revealFuel (fuel + 1) acc a).1).cells.getD (to_index a dims)
          Cell.new).state = CellState.Revealed := by
        rw [← hdims] at hnf ⊢
        exact revealFuel_target_revealed fuel acc a (by rw [hdims, hlen])
          (by rw [hdims]; exact hval a (by simp)) hnf
      obtain ⟨_, _, _, _, hstates2⟩ := foldl_rel Evolves
        (fun acc neighbor_coords => (revealFuel (fuel + 1) acc neighbor_coords).1)
        evolves_refl (fun _ _ _ => Evolves.comp) L ((revealFuel (fuel + 1) acc a).1)
        (fun a2 x2 _ => revealFuel_evolves (fuel + 1) a2 x2)
      rcases hstates2 (to_index a dims) with h | h
      · rw [h]
        exact hrev
      · exact h
    · apply ihL ((revealFuel (fuel + 1) acc x).1) (hd.trans hdims) (hl.trans hlen)
        (fun y hy => hval y (by simp [hy])) a haL
      rcases hstates (to_index a dims) with h | h
      · rw [h]
        exact hnf
      · rw [h]
        intro hcon
        cases hcon

/-! ### The win query -/

theorem all_getD_iff (p : Cell → Bool) (l : List Cell) :
    l.all p = true ↔ ∀ j, j < l.length → p (l.getD j Cell.new) = true := by
  rw [List.all_eq_true]
  constructor
  · intro h j hj
    rw [List.getD_eq_getElem _ _ hj]
    exact h _ (List.getElem_mem hj)
  · intro h cell hcell
    obtain ⟨j, hj, rfl⟩ := List.getElem_of_mem hcell
    have := h j hj
    rw [List.getD_eq_getElem _ _ hj] at this
    exact this

/-- `Game::is_won` holds exactly when, cell by cell, being a mine is
equivalent to being unrevealed (spec section 4.2's win condition). -/
theorem Game_is_won_iff (g : Game) :
    g.is_won = true ↔ ∀ j, j < g.board.cells.length →
      (((g.board.cells.getD j Cell.new).kind = CellKind.Mine) ↔
        ((g.board.cells.getD j Cell.new).state ≠ CellState.Revealed)) := by
  unfold Game.is_won
  rw [all_getD_iff]
  constructor
  · intro h j hj
    have := h j hj
    rw [beq_iff_eq, decide_eq_decide] at this
    constructor
    · intro hm hrev
      exact (this.mpr hrev) hm
    · intro hnr
      by_contra hnm
      exact hnr (this.mp hnm)
  · intro h j hj
    rw [beq_iff_eq, decide_eq_decide]
    have := h j hj
    constructor
    · intro hnm
      by_contra hnr
      exact hnm (this.mpr hnr)
    · intro hrev hm
      exact (this.mp hm) hrev

/-! ## The claims -/

/-- C1: for every shape `s` and every coordinate `c` valid for `s` (same
length, each component strictly below the corresponding extent), decoding
the encoded index returns the original coordinate:
`to_coords (to_index c s) s = c`. -/
theorem C1_roundtrip (c s : List Nat) (h : validCoords c s = true) :
    to_coords (to_index c s) s = c :=
  to_coords_to_index h

/-- Witness for C1 at the coordinate `[1, 2]` of shape `[3, 4]`. -/
theorem C1_roundtrip_witness :
    validCoords [1, 2] [3, 4] = true ∧ to_coords (to_index [1, 2] [3, 4]) [3, 4] = [1, 2] :=
  ⟨by decide, C1_roundtrip [1, 2] [3, 4] (by decide)⟩

/-- C2 counterexample: in dimension 21 the `u32` candidate counter
`3_u32.pow(21)` wraps, and `get_neighbors` misses a Moore neighbour: on
shape `[3, ..., 3]`, the interior cell `[1, ..., 1]` has the in-bounds
neighbour `[2, 1, ..., 1]` (first axis shifted by +1), yet the returned
list does not contain it, because its candidate index `5230176602`
exceeds the wrapped loop bound `3 ^ 21 % 2 ^ 32 = 1870418611`.  (In a
debug build the source would panic on the overflow instead.) -/
theorem C2_counterexample :
    adjacentTo (2 :: List.replicate 20 1) (List.replicate 21 1) (List.replicate 21 3) = true ∧
    (2 :: List.replicate 20 1) ≠ List.replicate 21 1 ∧
    (2 :: List.replicate 20 1) ∉ get_neighbors (List.replicate 21 1) (List.replicate 21 3) := by
  refine ⟨by decide, by decide, ?_⟩
  intro hmem
  rw [get_neighbors_def (by decide)] at hmem
  rw [List.mem_filterMap] at hmem
  obtain ⟨n, hn, hsome⟩ := hmem
  rw [List.mem_filter, List.mem_range] at hn
  have hbig : applyOffsets (List.replicate 21 1) (List.replicate 21 3) 5230176602
      = some (2 :: List.replicate 20 1) := by decide
  have hlt : n < 3 ^ (List.replicate (α := Nat) 21 1).length := by
    have h1 := hn.1
    have : (3 : Nat) ^ 21 % 2 ^ 32 < 3 ^ 21 := by norm_num
    simp only [List.length_replicate]
    omega
  have hn2 : n = 5230176602 :=
    applyOffsets_inj hsome hbig hlt (by simp only [List.length_replicate]; norm_num)
  have h1 := hn.1
  rw [hn2] at h1
  norm_num at h1

/-- C2 (amended): as long as `3 ^ N` fits in the `u32` candidate counter
(dimensionality at most 20), `get_neighbors` returns exactly the
coordinates obtained by shifting each axis independently by −1, 0 or +1,
excluding the unshifted centre and anything out of bounds; an interior
cell then has exactly `3 ^ N − 1` neighbours, and the corner `[0, 0]` of
shape `[3, 3]` exactly 3.  For dimensionality 21 and up the counter wraps
and the enumeration is incomplete (see the counterexample). -/
theorem C2_neighbors (coords dims : List Nat)
    (hlen : coords.length = dims.length) (hsmall : 3 ^ coords.length < 2 ^ 32) :
    (∀ a, a ∈ get_neighbors coords dims ↔
      (adjacentTo a coords dims = true ∧ a ≠ coords)) ∧
    (interior coords dims = true →
      (get_neighbors coords dims).length = 3 ^ coords.length - 1) ∧
    (get_neighbors [0, 0] [3, 3]).length = 3 := by
  refine ⟨fun a => mem_get_neighbors_iff hlen hsmall a, ?_, by decide⟩
  intro hint
  exact get_neighbors_interior_length hsmall hint

/-- Witness for C2 at the interior cell `[1, 1]` of shape `[3, 3]`. -/
theorem C2_neighbors_witness :
    ([1, 1] : List Nat).length = ([3, 3] : List Nat).length ∧
    3 ^ ([1, 1] : List Nat).length < 2 ^ 32 ∧
    ((∀ a, a ∈ get_neighbors [1, 1] [3, 3] ↔
        (adjacentTo a [1, 1] [3, 3] = true ∧ a ≠ [1, 1])) ∧
      (interior [1, 1] [3, 3] = true →
        (get_neighbors [1, 1] [3, 3]).length = 3 ^ ([1, 1] : List Nat).length - 1) ∧
      (get_neighbors [0, 0] [3, 3]).length = 3) :=
  ⟨by decide, by decide, C2_neighbors [1, 1] [3, 3] (by decide) (by decide)⟩

set_option maxRecDepth 100000 in
/-- C3 counterexample: on the 6-dimensional board `bigBoard` (shape
`[3,3,3,3,2,2]`, 256 mines, all of them neighbours of flat index 40), the
non-mine cell at index 40 has 256 neighbouring mines but stores
adjacent-mine count `0`: its `u8` counter wrapped.  The claim's "count
equal to the number of its neighbors whose content is Mine" fails here. -/
theorem C3_counterexample :
    (bigBoard.cells.getD 40 Cell.new).kind = CellKind.Empty 0 ∧
    mine_neighbor_total bigBoard.cells bigDims (to_coords 40 bigDims) = 256 ∧
    (0 : Nat) ≠ 256 := by
  have hplaced : mine_neighbor_total
      (place_mines (List.replicate bigDims.prod Cell.new) bigChosen) bigDims
      (to_coords 40 bigDims) = 256 := by decide
  have hcong : mine_neighbor_total bigBoard.cells bigDims (to_coords 40 bigDims) = 256 := by
    have := @mine_neighbor_total_congr (Board.new bigDims bigChosen 256).cells
      (place_mines (List.replicate bigDims.prod Cell.new) bigChosen) bigDims
      (to_coords 40 bigDims)
      (fun i => Board_new_mine_iff_placed bigDims bigChosen 256 i)
    rw [show bigBoard = Board.new bigDims bigChosen 256 from rfl, this]
    exact hplaced
  refine ⟨?_, hcong, by decide⟩
  show ((Board.new bigDims bigChosen 256).cells.getD 40 Cell.new).kind = _
  rw [Board_new_kind_total bigDims bigChosen 256 40 (by decide)]
  rw [if_neg (by decide)]
  rw [show mine_neighbor_total (Board.new bigDims bigChosen 256).cells bigDims
    (to_coords 40 bigDims) = 256 from hcong]

/-- C3 (amended): after construction with a `choose_multiple` sample of
`num_mines ≤ total` distinct in-range indices, and dimensionality at most
20 (so the neighbour enumeration is exact): exactly `num_mines` cells are
mines; every other cell is `Empty` storing the number of its neighbours
(per the N-dimensional adjacency rule) that are mines, reduced modulo 256
(the `u8` storage; equal to the true number whenever it is below 256);
and no `toggle_flag` or `reveal` call ever changes any cell's content. -/
theorem C3_board_invariant (dims chosen : List Nat) (m : Nat)
    (hnd : chosen.Nodup) (hb : ∀ j ∈ chosen, j < dims.prod)
    (hcl : chosen.length = m) (_hm : m ≤ dims.prod)
    (hsmall : 3 ^ dims.length < 2 ^ 32) :
    mineCount (Board.new dims chosen m) = m ∧
    (∀ j, j < dims.prod →
      ((Board.new dims chosen m).cells.getD j Cell.new).kind =
        if j ∈ chosen then CellKind.Mine
        else CellKind.Empty
          (mine_neighbor_total (Board.new dims chosen m).cells dims (to_coords j dims)
            % 256)) ∧
    (∀ j, j < dims.prod → ∀ a,
      a ∈ get_neighbors (to_coords j dims) dims ↔
        (adjacentTo a (to_coords j dims) dims = true ∧ a ≠ to_coords j dims)) ∧
    (∀ (b : Board) (c : List Nat) (j : Nat),
      ((b.toggle_flag c).cells.getD j Cell.new).kind = (b.cells.getD j Cell.new).kind) ∧
    (∀ (b : Board) (c : List Nat) (j : Nat),
      (((b.reveal c).1).cells.getD j Cell.new).kind = (b.cells.getD j Cell.new).kind) := by
  refine ⟨?_, ?_, ?_, ?_, ?_⟩
  · rw [Board_new_mineCount dims chosen m hnd hb, hcl]
  · intro j hj
    exact Board_new_kind_total dims chosen m j hj
  · intro j hj a
    apply mem_get_neighbors_iff (to_coords_length j dims)
    rw [to_coords_length j dims]
    exact hsmall
  · intro b c j
    exact toggle_flag_kind b c j
  · intro b c j
    obtain ⟨_, _, _, hk, _⟩ := Board_reveal_evolves b c
    exact hk j

/-- Witness for C3 at shape `[3, 3]` with one mine at index 0. -/
theorem C3_board_invariant_witness :
    ([0] : List Nat).Nodup ∧ (∀ j ∈ ([0] : List Nat), j < ([3, 3] : List Nat).prod) ∧
    ([0] : List Nat).length = 1 ∧ 1 ≤ ([3, 3] : List Nat).prod ∧
    3 ^ ([3, 3] : List Nat).length < 2 ^ 32 ∧
    mineCount (Board.new [3, 3] [0] 1) = 1 :=
  ⟨by decide, by decide, by decide, by decide, by decide,
    (C3_board_invariant [3, 3] [0] 1 (by decide) (by decide) (by decide) (by decide)
      (by decide)).1⟩

/-- C4: revealing a hidden cell whose content is `Empty` with count 0
recursively reveals its in-bounds neighbourhood: every neighbour that is
not flagged ends up `Revealed`; and concretely, on a `[3, 3]` board whose
only mine sits at `[0, 0]` (flat index 0), revealing `[2, 2]` leaves every
cell revealed except the mine, which stays unrevealed. -/
theorem C4_flood_fill (b : Board) (coords : List Nat)
    (hwf : b.cells.length = b.dimensions.prod)
    (hv : validCoords coords b.dimensions = true)
    (hhid : (b.cells.getD (to_index coords b.dimensions) Cell.new).state = CellState.Hidden)
    (hk : (b.cells.getD (to_index coords b.dimensions) Cell.new).kind = CellKind.Empty 0) :
    (∀ a ∈ get_neighbors coords b.dimensions,
      (b.cells.getD (to_index a b.dimensions) Cell.new).state ≠ CellState.Flagged →
      ((((b.reveal coords).1).cells.getD (to_index a b.dimensions) Cell.new).state
        = CellState.Revealed)) ∧
    ((((Board.new [3, 3] [0] 1).reveal [2, 2]).1.cells.getD 0 Cell.new).state
      ≠ CellState.Revealed) ∧
    (∀ j, j < 9 → j ≠ 0 →
      (((Board.new [3, 3] [0] 1).reveal [2, 2]).1.cells.getD j Cell.new).state
        = CellState.Revealed) := by
  refine ⟨?_, by decide, by decide⟩
  intro a ha hnf
  have hlen : coords.length = b.dimensions.length := validCoords_length hv
  have hidx : to_index coords b.dimensions < b.cells.length := by
    rw [hwf]
    exact to_index_lt_prod hv
  have hg : ¬((b.cells.getD (to_index coords b.dimensions) Cell.new).state =
      CellState.Flagged ∨
      (b.cells.getD (to_index coords b.dimensions) Cell.new).state = CellState.Revealed) := by
    rw [hhid]
    intro hcon
    rcases hcon with h | h <;> cases h
  obtain ⟨L, hL⟩ : ∃ L, b.cells.length = L + 1 := ⟨b.cells.length - 1, by omega⟩
  show ((revealFuel (b.cells.length + 1) b coords).1.cells.getD
    (to_index a b.dimensions) Cell.new).state = CellState.Revealed
  rw [hL, revealFuel_succ_zero (L + 1) hg hk]
  have hb1nf : (((setState b.cells (to_index coords b.dimensions)
      CellState.Revealed).getD (to_index a b.dimensions) Cell.new).state
      ≠ CellState.Flagged) := by
    by_cases hia : to_index a b.dimensions = to_index coords b.dimensions
    · rw [hia, getD_setState_self _ _ _ hidx]
      intro hcon
      cases hcon
    · rw [getD_setState_ne _ _ _ _ hia]
      exact hnf
  exact foldl_reveal_members L b.dimensions (get_neighbors coords b.dimensions)
    { b with cells := (setState b.cells (to_index coords b.dimensions)
        CellState.Revealed) }
    rfl (by rw [setState_length, ← hwf, hL])
    (fun x hx => adjacentTo_validCoords (get_neighbors_sound hlen hx)) a ha hb1nf

/-- Witness for C4: the `[3, 3]` board with its single mine at index 0,
revealing the opposite corner `[2, 2]`. -/
theorem C4_flood_fill_witness :
    (Board.new [3, 3] [0] 1).cells.length = ([3, 3] : List Nat).prod ∧
    validCoords [2, 2] (Board.new [3, 3] [0] 1).dimensions = true ∧
    (((Board.new [3, 3] [0] 1).cells.getD
      (to_index [2, 2] (Board.new [3, 3] [0] 1).dimensions) Cell.new).state
        = CellState.Hidden) ∧
    (((Board.new [3, 3] [0] 1).cells.getD
      (to_index [2, 2] (Board.new [3, 3] [0] 1).dimensions) Cell.new).kind
        = CellKind.Empty 0) ∧
    (∀ a ∈ get_neighbors [2, 2] (Board.new [3, 3] [0] 1).dimensions,
      ((Board.new [3, 3] [0] 1).cells.getD
        (to_index a (Board.new [3, 3] [0] 1).dimensions) Cell.new).state
          ≠ CellState.Flagged →
      ((((Board.new [3, 3] [0] 1).reveal [2, 2]).1.cells.getD
        (to_index a (Board.new [3, 3] [0] 1).dimensions) Cell.new).state
          = CellState.Revealed)) :=
  ⟨by decide, by decide, by decide, by decide,
    (C4_flood_fill (Board.new [3, 3] [0] 1) [2, 2] (by decide) (by decide) (by decide)
      (by decide)).1⟩

/-- C5: while the game is `InProgress`, `Game::reveal` delegates to
`Board::reveal`; a reported mine hit moves the state to `Lost`, otherwise
the state becomes `Won` exactly when every cell satisfies
"content is a mine iff its state is not `Revealed`", and stays
`InProgress` otherwise. -/
theorem C5_game_reveal (g : Game) (c : List Nat)
    (hst : g.state = GameState.InProgress)
    (_hv : validCoords c g.board.dimensions = true) :
    (g.reveal c).board = (g.board.reveal c).1 ∧
    (g.reveal c).state =
      (if (g.board.reveal c).2 then GameState.Lost
       else if ({ g with board := (g.board.reveal c).1 } : Game).is_won then GameState.Won
       else GameState.InProgress) ∧
    (∀ g2 : Game, g2.is_won = true ↔ ∀ j, j < g2.board.cells.length →
      (((g2.board.cells.getD j Cell.new).kind = CellKind.Mine) ↔
        ((g2.board.cells.getD j Cell.new).state ≠ CellState.Revealed))) := by
  refine ⟨?_, ?_, fun g2 => Game_is_won_iff g2⟩
  · rw [Game_reveal_inprogress hst]
    by_cases hhit : (g.board.reveal c).2 = true
    · rw [if_pos hhit]
    · rw [if_neg hhit]
      by_cases hwon : ({ g with board := (g.board.reveal c).1 } : Game).is_won = true
      · rw [if_pos hwon]
      · rw [if_neg hwon]
  · rw [Game_reveal_inprogress hst]
    by_cases hhit : (g.board.reveal c).2 = true
    · rw [if_pos hhit, if_pos hhit]
    · rw [if_neg hhit, if_neg hhit]
      by_cases hwon : ({ g with board := (g.board.reveal c).1 } : Game).is_won = true
      · rw [if_pos hwon, if_pos hwon]
      · rw [if_neg hwon, if_neg hwon]
        exact hst

/-- Witness for C5: a mine-free `[2]` board, revealing `[0]` (which wins). -/
theorem C5_game_reveal_witness :
    (Game.new [2] [] 0).state = GameState.InProgress ∧
    validCoords [0] (Game.new [2] [] 0).board.dimensions = true ∧
    ((Game.new [2] [] 0).reveal [0]).board = ((Game.new [2] [] 0).board.reveal [0]).1 ∧
    ((Game.new [2] [] 0).reveal [0]).state =
      (if ((Game.new [2] [] 0).board.reveal [0]).2 then GameState.Lost
       else if ({ Game.new [2] [] 0 with
          board := ((Game.new [2] [] 0).board.reveal [0]).1 } : Game).is_won then
         GameState.Won
       else GameState.InProgress) :=
  ⟨by decide, by decide,
    (C5_game_reveal (Game.new [2] [] 0) [0] (by decide) (by decide)).1,
    (C5_game_reveal (Game.new [2] [] 0) [0] (by decide) (by decide)).2.1⟩

/-- C6: `Board::reveal` on a coordinate whose cell is `Flagged` or already
`Revealed` returns `false` and leaves the board untouched; in particular
flagging a hidden mine cell and then revealing it leaves it `Flagged`,
reports no mine hit, and its content is still a mine. -/
theorem C6_reveal_noop (b : Board) (c : List Nat)
    (h : (b.cells.getD (to_index c b.dimensions) Cell.new).state = CellState.Flagged ∨
         (b.cells.getD (to_index c b.dimensions) Cell.new).state = CellState.Revealed) :
    b.reveal c = (b, false) ∧
    ((Board.new [2, 2] [0] 1).toggle_flag [0, 0]).reveal [0, 0]
      = ((Board.new [2, 2] [0] 1).toggle_flag [0, 0], false) ∧
    ((((Board.new [2, 2] [0] 1).toggle_flag [0, 0]).cells.getD 0 Cell.new).state
      = CellState.Flagged) ∧
    ((((Board.new [2, 2] [0] 1).toggle_flag [0, 0]).cells.getD 0 Cell.new).kind
      = CellKind.Mine) := by
  refine ⟨?_, by decide, by decide, by decide⟩
  show revealFuel (b.cells.length + 1) b c = (b, false)
  exact revealFuel_succ_guard _ h

/-- Witness for C6: the flagged mine cell of a `[2, 2]` board. -/
theorem C6_reveal_noop_witness :
    ((((Board.new [2, 2] [0] 1).toggle_flag [0, 0]).cells.getD
        (to_index [0, 0] ((Board.new [2, 2] [0] 1).toggle_flag [0, 0]).dimensions)
        Cell.new).state = CellState.Flagged ∨
      (((Board.new [2, 2] [0] 1).toggle_flag [0, 0]).cells.getD
        (to_index [0, 0] ((Board.new [2, 2] [0] 1).toggle_flag [0, 0]).dimensions)
        Cell.new).state = CellState.Revealed) ∧
    ((Board.new [2, 2] [0] 1).toggle_flag [0, 0]).reveal [0, 0]
      = ((Board.new [2, 2] [0] 1).toggle_flag [0, 0], false) :=
  ⟨by decide,
    (C6_reveal_noop ((Board.new [2, 2] [0] 1).toggle_flag [0, 0]) [0, 0] (by decide)).1⟩

/-- C7: once a game's state is `Won` or `Lost`, `reveal` and `toggle_flag`
are exact no-ops: the game (state and every cell of the board) is
unchanged, so terminal states admit no outgoing transitions. -/
theorem C7_terminal (g : Game) (c1 c2 : List Nat)
    (h : g.state = GameState.Won ∨ g.state = GameState.Lost) :
    g.reveal c1 = g ∧ g.toggle_flag c2 = g := by
  have hnotin : ¬ g.state = GameState.InProgress := by
    rcases h with h | h <;> rw [h] <;> intro hcon <;> cases hcon
  exact ⟨Game_reveal_not_inprogress hnotin, Game_toggle_not_inprogress hnotin⟩

/-- Witness for C7: the game won by clearing the mine-free `[1]` board. -/
theorem C7_terminal_witness :
    (((Game.new [1] [] 0).reveal [0]).state = GameState.Won ∨
      ((Game.new [1] [] 0).reveal [0]).state = GameState.Lost) ∧
    ((Game.new [1] [] 0).reveal [0]).reveal [0] = (Game.new [1] [] 0).reveal [0] ∧
    ((Game.new [1] [] 0).reveal [0]).toggle_flag [0] = (Game.new [1] [] 0).reveal [0] :=
  ⟨by decide,
    (C7_terminal ((Game.new [1] [] 0).reveal [0]) [0] [0] (by decide)).1,
    (C7_terminal ((Game.new [1] [] 0).reveal [0]) [0] [0] (by decide)).2⟩

/-- C8: the reveal recursion terminates on every board and valid
coordinate.  Formally: the recursion with any budget exceeding the number
of unrevealed cells computes `Board::reveal`'s answer — every recursive
call is made only after the current cell has been marked `Revealed` and
calls on already revealed cells return at once, so the unrevealed count
strictly decreases along the recursion and bounds its depth. -/
theorem C8_termination (fuel : Nat) (b : Board) (coords : List Nat)
    (hwf : b.cells.length = b.dimensions.prod)
    (hv : validCoords coords b.dimensions = true)
    (hfuel : unrevealedCount b < fuel) :
    revealFuel fuel b coords = b.reveal coords :=
  revealFuel_eq_reveal fuel b coords hwf hv hfuel

/-- Witness for C8 on a `[2, 2]` board with a generous budget. -/
theorem C8_termination_witness :
    (Board.new [2, 2] [0] 1).cells.length = ([2, 2] : List Nat).prod ∧
    validCoords [1, 1] (Board.new [2, 2] [0] 1).dimensions = true ∧
    unrevealedCount (Board.new [2, 2] [0] 1) < 100 ∧
    revealFuel 100 (Board.new [2, 2] [0] 1) [1, 1]
      = (Board.new [2, 2] [0] 1).reveal [1, 1] :=
  ⟨by decide, by decide, by decide,
    C8_termination 100 (Board.new [2, 2] [0] 1) [1, 1] (by decide) (by decide) (by decide)⟩

/-- C9 counterexample: invalid construction parameters are not rejected —
there is no error path at all.  A zero-length shape yields a one-cell
board (empty product), a zero-extent axis yields a zero-cell board, and
asking for 10 mines on 4 cells yields a board with only 4 mines while the
`num_mines` field still records 10: degenerate boards are produced where
the claim demands a descriptive error. -/
theorem C9_counterexample :
    (Board.new [] [] 0).cells.length = 1 ∧
    (Board.new [0] [] 5).cells.length = 0 ∧
    mineCount (Board.new [2, 2] [0, 1, 2, 3] 10) = 4 ∧
    (Board.new [2, 2] [0, 1, 2, 3] 10).num_mines = 10 ∧
    (Game.new [] [] 0).state = GameState.InProgress := by
  refine ⟨by decide, by decide, by decide, by decide, by decide⟩

/-- C9 (amended): `Board::new` and `Game::new` perform no validation and
always succeed.  Construction always returns a board with
`product(shape)` cells and an `InProgress` game: a zero-length shape
gives a single cell, a zero-extent axis gives zero cells, and when
`num_mines` exceeds the cell count the sampling caps the mines actually
placed at the cell count while the `num_mines` field keeps the requested
value.  Nothing is rejected and no error is reported. -/
theorem C9_no_validation (dims chosen : List Nat) (m : Nat)
    (hnd : chosen.Nodup) (hb : ∀ j ∈ chosen, j < dims.prod)
    (hcl : chosen.length = min m dims.prod) :
    (Board.new dims chosen m).cells.length = dims.prod ∧
    (Game.new dims chosen m).state = GameState.InProgress ∧
    (dims = [] → (Board.new dims chosen m).cells.length = 1) ∧
    (0 ∈ dims → (Board.new dims chosen m).cells.length = 0) ∧
    mineCount (Board.new dims chosen m) = min m dims.prod ∧
    (Board.new dims chosen m).num_mines = m := by
  refine ⟨Board_new_length dims chosen m, rfl, ?_, ?_, ?_, rfl⟩
  · intro hnil
    subst hnil
    rw [Board_new_length]
    rfl
  · intro hzero
    rw [Board_new_length]
    exact List.prod_eq_zero hzero
  · rw [Board_new_mineCount dims chosen m hnd hb, hcl]

/-- Witness for C9: 10 mines requested on the 4-cell shape `[2, 2]`. -/
theorem C9_no_validation_witness :
    ([0, 1, 2, 3] : List Nat).Nodup ∧
    (∀ j ∈ ([0, 1, 2, 3] : List Nat), j < ([2, 2] : List Nat).prod) ∧
    ([0, 1, 2, 3] : List Nat).length = min 10 ([2, 2] : List Nat).prod ∧
    mineCount (Board.new [2, 2] [0, 1, 2, 3] 10) = min 10 ([2, 2] : List Nat).prod :=
  ⟨by decide, by decide, by decide,
    (C9_no_validation [2, 2] [0, 1, 2, 3] 10 (by decide) (by decide)
      (by decide)).2.2.2.2.1⟩

/-- C10 counterexample: an out-of-range coordinate aliases another cell
and defeats the cascade-safety reasoning even with exact counts.  On a
`[3, 3]` board with one mine at flat index 2 (coordinate `[2, 0]`),
calling `reveal [3, 0]` — a coordinate the engine never rejects —
addresses flat index 3, the zero-count cell `[0, 1]`, and flood-fills
the phantom neighbourhood of `[3, 0]`, which contains the mine at
`[2, 0]`.  The mine ends up `Revealed` while the game is still
`InProgress` (the inner reveal's mine report is discarded), refuting the
claim that only the `Lost` transition can reveal a mine in a state
reachable by reveal calls. -/
theorem C10_counterexample :
    ((Game.new [3, 3] [2] 1).reveal [3, 0]).state = GameState.InProgress ∧
    ((((Game.new [3, 3] [2] 1).reveal [3, 0]).board.cells.getD 2 Cell.new).kind
      = CellKind.Mine) ∧
    ((((Game.new [3, 3] [2] 1).reveal [3, 0]).board.cells.getD 2 Cell.new).state
      = CellState.Revealed) := by
  refine ⟨by decide, by decide, by decide⟩

/-- C10 (amended): restrict play to valid coordinates (each component
below its extent — the source applies no such check itself) and to boards
whose stored zero counts are honest (a stored 0 really means a mine-free
neighbourhood, which `Board::new` guarantees whenever no true neighbour
count reaches 256, in particular up to dimensionality 5).  Then in every
reachable non-`Lost` game state no mine cell is `Revealed`: the cascade
recurses only out of zero-count cells, whose neighbours are not mines, so
only a direct reveal of a mine can reveal one, and that immediately sets
`Lost`. -/
theorem C10_no_mine_revealed (g : Game) (hr : ReachableValid g)
    (hz : zeroHonest g.board) (hnl : g.state ≠ GameState.Lost) :
    noMineRevealed g.board :=
  (reachable_invariant hr).2 hz hnl

/-- Witness for C10: the freshly constructed `[3, 3]` game with one mine. -/
theorem C10_no_mine_revealed_witness :
    ReachableValid (Game.new [3, 3] [0] 1) ∧
    zeroHonest (Game.new [3, 3] [0] 1).board ∧
    (Game.new [3, 3] [0] 1).state ≠ GameState.Lost ∧
    noMineRevealed (Game.new [3, 3] [0] 1).board :=
  ⟨ReachableValid.new [3, 3] [0] 1 (by decide) (by decide) (by decide),
    by decide, by decide,
    C10_no_mine_revealed (Game.new [3, 3] [0] 1)
      (ReachableValid.new [3, 3] [0] 1 (by decide) (by decide) (by decide))
      (by decide) (by decide)⟩

end Minesweeper
